import Mathlib

/-!
Verification development for a small route-finding search library.

The library consists of four classes — `RoadMap` (a directed weighted graph
with named road segments), `RouteProblem` (a search problem over a map),
`Node` (a search-tree node) and `Frontier` (a FIFO/LIFO fringe) — together
with two traversal functions `BFS` and `DFS` and a process-wide node
expansion counter.

Modelling conventions:
* Python dicts are insertion-ordered association lists (`List (key × value)`),
  with Python's `d[k] = v`, `d.setdefault(k, v)` and `d.get(k)` given by
  `dictInsert`, `dictSetdefault` and `alookup`.
* Numeric road costs are rationals (`ℚ`).
* Fallible code (a lookup returning Python `None` that the caller would then
  crash on) is `Option`-valued; a run that would raise is `SearchResult.error`.
* The process-wide expansion counter is threaded explicitly as a `ℕ`.
* The unbounded `while` loops of the traversals take an explicit fuel
  argument; exhausting the fuel yields `SearchResult.outOfFuel`.
-/

namespace RouteSearch

/-- Python dict lookup `d.get(k)` on an association list. -/
def alookup {α β : Type} [DecidableEq α] : List (α × β) → α → Option β
  | [], _ => none
  | (a, b) :: t, k => if a = k then some b else alookup t k

/-- Python dict assignment `d[k] = v`: overwrite in place if the key is
present (keeping its position), otherwise append at the end. -/
def dictInsert {α β : Type} [DecidableEq α] : List (α × β) → α → β → List (α × β)
  | [], k, v => [(k, v)]
  | (a, b) :: t, k, v => if a = k then (a, v) :: t else (a, b) :: dictInsert t k v

/-- Python `d.setdefault(k, v)` restricted to its effect on the dict: insert
`k ↦ v` at the end when `k` is absent, otherwise leave the dict unchanged. -/
def dictSetdefault {α β : Type} [DecidableEq α] (l : List (α × β)) (k : α) (v : β) :
    List (α × β) :=
  if (alookup l k).isSome then l else l ++ [(k, v)]

/-- Python `d.setdefault(k, {})[k2] = v` on a dict of dicts: ensure an inner
dict exists for `k`, then assign `k2 ↦ v` inside it. -/
def nestedSet {α β γ : Type} [DecidableEq α] [DecidableEq β] :
    List (α × List (β × γ)) → α → β → γ → List (α × List (β × γ))
  | [], k, k2, v => [(k, [(k2, v)])]
  | (a, d) :: t, k, k2, v =>
    if a = k then (a, dictInsert d k2 v) :: t else (a, d) :: nestedSet t k k2 v

/-- `listMapOpt f xs` is the list comprehension `[f x for x in xs]` where each
`f x` may raise (return `none`); the first failure aborts the whole list. -/
def listMapOpt {α β : Type} (f : α → Option β) : List α → Option (List β)
  | [] => some []
  | a :: t =>
    match f a with
    | none => none
    | some b =>
      match listMapOpt f t with
      | none => none
      | some bs => some (b :: bs)

/-- Search depth limit, to avoid infinite loops (`depth_limit = 20`). -/
def depth_limit : ℕ := 20

/-- A road map: road-segment costs indexed by start and end locations
(`connection_dict`), a mapping from location and road-segment name to
resulting location (`road_dict`), and Cartesian coordinates of locations
(`loc_dict`). -/
structure RoadMap (Loc Road : Type) where
  connection_dict : List (Loc × List (Loc × ℚ))
  road_dict : List (Loc × List (Road × Loc))
  loc_dict : List (Loc × (ℚ × ℚ))
deriving DecidableEq

variable {Loc Road : Type} [DecidableEq Loc] [DecidableEq Road]

/-- `add_location(loc, longitude, latitude)`. -/
def RoadMap.add_location (m : RoadMap Loc Road) (loc : Loc) (longitude latitude : ℚ) :
    RoadMap Loc Road :=
  { m with loc_dict := dictInsert m.loc_dict loc (longitude, latitude) }

/-- `add_road(start, end, name, cost)`: record the cost entry, and the named
segment only when a name is given. -/
def RoadMap.add_road (m : RoadMap Loc Road) (start fin : Loc) (name : Option Road)
    (cost : ℚ) : RoadMap Loc Road :=
  { m with
    connection_dict := nestedSet m.connection_dict start fin cost
    road_dict :=
      match name with
      | none => m.road_dict
      | some nm => nestedSet m.road_dict start nm fin }

/-- `get(start, end)`: `setdefault` the successors of `start` (a mutation of
the map when `start` is absent), then return either the whole successor dict
(`end` not given) or the cost of the edge to `end`. -/
def RoadMap.get (m : RoadMap Loc Road) (start : Loc) (fin : Option Loc) :
    RoadMap Loc Road × (List (Loc × ℚ) ⊕ Option ℚ) :=
  let successors := (alookup m.connection_dict start).getD []
  let m' := { m with connection_dict := dictSetdefault m.connection_dict start [] }
  match fin with
  | none => (m', Sum.inl successors)
  | some e => (m', Sum.inr (alookup successors e))

/-- `get_result(start, road)`: `setdefault` the named segments of `start`
(a mutation of the map when `start` is absent), then return either the whole
road dict (`road` not given) or the destination of the named road. -/
def RoadMap.get_result (m : RoadMap Loc Road) (start : Loc) (road : Option Road) :
    RoadMap Loc Road × (List (Road × Loc) ⊕ Option Loc) :=
  let successors := (alookup m.road_dict start).getD []
  let m' := { m with road_dict := dictSetdefault m.road_dict start [] }
  match road with
  | none => (m', Sum.inl successors)
  | some r => (m', Sum.inr (alookup successors r))

/-- The value `get(start, end)` produces: the cost of the direct edge
`start → end`, `none` when absent. -/
def RoadMap.getCost (m : RoadMap Loc Road) (start fin : Loc) : Option ℚ :=
  alookup ((alookup m.connection_dict start).getD []) fin

/-- The value `get_result(start, road)` produces: the destination of the named
road segment from `start`, `none` when absent. -/
def RoadMap.getRes (m : RoadMap Loc Road) (start : Loc) (road : Road) : Option Loc :=
  alookup ((alookup m.road_dict start).getD []) road

/-- The value `get_result(start)` produces: the dict of named road segments
departing `start`. -/
def RoadMap.roadsFrom (m : RoadMap Loc Road) (start : Loc) : List (Road × Loc) :=
  (alookup m.road_dict start).getD []

/-- A description of a route finding problem on a given map. -/
structure RouteProblem (Loc Road : Type) where
  map : RoadMap Loc Road
  start : Loc
  goal : Option Loc

/-- `actions(loc)`: the road segment names leading from the given location
(`self.map.get_result(loc).keys()`). -/
def RouteProblem.actions (p : RouteProblem Loc Road) (loc : Loc) : List Road :=
  (p.map.roadsFrom loc).map Prod.fst

/-- `result(loc, road)`: the location at the end of the given road. -/
def RouteProblem.result (p : RouteProblem Loc Road) (loc : Loc) (road : Road) :
    Option Loc :=
  p.map.getRes loc road

/-- `is_goal(loc)`: `loc == self.goal` (false for every `loc` when the goal is
unset). -/
def RouteProblem.is_goal (p : RouteProblem Loc Road) (loc : Loc) : Bool :=
  decide (some loc = p.goal)

/-- `action_cost(start, end)`: the cost of the road segment from start to
end. -/
def RouteProblem.action_cost (p : RouteProblem Loc Road) (start fin : Loc) : Option ℚ :=
  p.map.getCost start fin

/-- A node in the search tree: location, parent back-pointer, road taken,
accumulated path cost, and depth. -/
inductive Node (Loc Road : Type) where
  | mk (loc : Loc) (parent : Option (Node Loc Road)) (road : Option Road)
      (path_cost : ℚ) (depth : ℕ)

/-- The `loc` field. -/
def Node.loc : Node Loc Road → Loc
  | .mk l _ _ _ _ => l

/-- The `parent` field. -/
def Node.parent : Node Loc Road → Option (Node Loc Road)
  | .mk _ p _ _ _ => p

/-- The `road` field. -/
def Node.road : Node Loc Road → Option Road
  | .mk _ _ r _ _ => r

/-- The `path_cost` field. -/
def Node.path_cost : Node Loc Road → ℚ
  | .mk _ _ _ c _ => c

/-- The `depth` field. -/
def Node.depth : Node Loc Road → ℕ
  | .mk _ _ _ _ d => d

/-- `Node.__init__`: depth is 0 for a root, the parent's depth plus one
otherwise. -/
def Node.make (loc : Loc) (parent : Option (Node Loc Road)) (road : Option Road)
    (path_cost : ℚ) : Node Loc Road :=
  Node.mk loc parent road path_cost
    (match parent with
     | none => 0
     | some p => p.depth + 1)

/-- `path()`: the list of nodes from the search tree root to this node. -/
def Node.path : Node Loc Road → List (Node Loc Road)
  | .mk l p r c d =>
    (match p with
     | none => []
     | some q => q.path) ++ [.mk l p r c d]

/-- `solution()`: the roads taken along the path, the root excluded. -/
def Node.solution (n : Node Loc Road) : List (Option Road) :=
  (n.path.drop 1).map Node.road

/-- `solution_with_roads()`: one `(road, loc)` pair per node of the walk from
this node back to the root, returned in root-to-here order. -/
def Node.solution_with_roads : Node Loc Road → List (Option Road × Loc)
  | .mk l p r _c _d =>
    (match p with
     | none => []
     | some q => q.solution_with_roads) ++ [(r, l)]

/-- `child_node(problem, road)`: resolve the destination and the edge cost,
then build the child; a failed lookup is a raised exception (`none`). -/
def Node.child_node (p : RouteProblem Loc Road) (n : Node Loc Road) (road : Road) :
    Option (Node Loc Road) :=
  match p.result n.loc road with
  | none => none
  | some child_loc =>
    match p.action_cost n.loc child_loc with
    | none => none
    | some c => some (Node.make child_loc (some n) (some road) (n.path_cost + c))

/-- `expand(problem)` without the counter side effect: no children at or above
the depth limit, otherwise one child per action in order. -/
def Node.expand (p : RouteProblem Loc Road) (n : Node Loc Road) :
    Option (List (Node Loc Road)) :=
  if n.depth ≥ depth_limit then some []
  else listMapOpt (fun road => n.child_node p road) (p.actions n.loc)

/-- `expand(problem)` with the process-wide expansion counter threaded
through: the counter is incremented exactly once, before any children are
built. -/
def Node.expand_counted (p : RouteProblem Loc Road) (n : Node Loc Road) (count : ℕ) :
    ℕ × Option (List (Node Loc Road)) :=
  (count + 1, n.expand p)

/-- The fringe of the search tree: a list of nodes popped either FIFO
(`lifo = false`, a deque popped at the left) or LIFO (`lifo = true`, a list
popped at the right). -/
structure Frontier (Loc Road : Type) where
  lifo : Bool
  nodes : List (Node Loc Road)

/-- `Frontier.__init__`: a frontier containing exactly the root node. -/
def Frontier.init (root : Node Loc Road) (stack : Bool) : Frontier Loc Road :=
  { lifo := stack, nodes := [root] }

/-- `is_empty()`. -/
def Frontier.is_empty (f : Frontier Loc Road) : Bool :=
  decide (f.nodes.length = 0)

/-- `contains(query_node)`: membership uses `Node.__eq__`, which compares by
location only. -/
def Frontier.contains (f : Frontier Loc Road) (q : Node Loc Road) : Bool :=
  f.nodes.any (fun n => decide (n.loc = q.loc))

/-- `add(new_nodes)`: append a whole list (`extend`) or a single node
(`append`); both disciplines insert at the tail. -/
def Frontier.add (f : Frontier Loc Road) (new : List (Node Loc Road) ⊕ Node Loc Road) :
    Frontier Loc Road :=
  match new with
  | Sum.inl l => { f with nodes := f.nodes ++ l }
  | Sum.inr n => { f with nodes := f.nodes ++ [n] }

/-- `pop()`: LIFO removes the most recently inserted node (tail), FIFO the
earliest inserted (head); popping an empty frontier raises (`none`). -/
def Frontier.pop (f : Frontier Loc Road) :
    Option (Node Loc Road × Frontier Loc Road) :=
  if f.lifo then
    match f.nodes.getLast? with
    | none => none
    | some n => some (n, { f with nodes := f.nodes.dropLast })
  else
    match f.nodes with
    | [] => none
    | h :: t => some (h, { f with nodes := t })

/-- Outcome of a traversal: a solution node, the Python `None` ("no
solution"), a raised exception, or exhausted fuel. -/
inductive SearchResult (Loc Road : Type) where
  | found (n : Node Loc Road)
  | noSolution
  | error
  | outOfFuel

/-- The body of BFS's `for i in explored` loop: with repeated-state checking
each child is tested against the reached set (a set of nodes compared by
location) and, when fresh, added to the frontier and recorded, before the
next sibling is examined; without it every child is added. -/
def bfsAddChildren (sett : Frontier Loc Road) (reached : List (Node Loc Road))
    (rc : Bool) : List (Node Loc Road) → Frontier Loc Road × List (Node Loc Road)
  | [] => (sett, reached)
  | i :: rest =>
    if rc then
      if reached.any (fun m => decide (m.loc = i.loc)) then
        bfsAddChildren sett reached rc rest
      else
        bfsAddChildren (sett.add (Sum.inr i)) (reached ++ [i]) rc rest
    else
      bfsAddChildren (sett.add (Sum.inr i)) reached rc rest

/-- The `while` loop of `BFS`, with explicit fuel and expansion counter. -/
def bfsLoop (p : RouteProblem Loc Road) : ℕ → Frontier Loc Road →
    List (Node Loc Road) → Bool → ℕ → ℕ × SearchResult Loc Road
  | 0, _, _, _, count => (count, .outOfFuel)
  | fuel + 1, sett, reached, rc, count =>
    match sett.pop with
    | none => (count, .noSolution)
    | some (taken, sett1) =>
      if p.is_goal taken.loc then (count, .found taken)
      else
        match Node.expand_counted p taken count with
        | (count1, none) => (count1, .error)
        | (count1, some explored) =>
          let st := bfsAddChildren sett1 reached rc explored
          bfsLoop p fuel st.1 st.2 rc count1

/-- `BFS(problem, repeat_check)`: root node, immediate goal test, FIFO
frontier, optional reached set seeded with the root, then the search loop. -/
def BFS (p : RouteProblem Loc Road) (repeat_check : Bool) (fuel count : ℕ) :
    ℕ × SearchResult Loc Road :=
  let rootNode : Node Loc Road := Node.make p.start none none 0
  if p.is_goal rootNode.loc then (count, .found rootNode)
  else
    let sett := Frontier.init rootNode false
    let reached : List (Node Loc Road) := if repeat_check then [rootNode] else []
    bfsLoop p fuel sett reached repeat_check count

/-- The body of DFS's `for i in explored` loop: the reached set is a plain
list of location identifiers checked by linear membership. -/
def dfsAddChildren (sett : Frontier Loc Road) (reached : List Loc) (rc : Bool) :
    List (Node Loc Road) → Frontier Loc Road × List Loc
  | [] => (sett, reached)
  | i :: rest =>
    if rc then
      if i.loc ∈ reached then
        dfsAddChildren sett reached rc rest
      else
        dfsAddChildren (sett.add (Sum.inr i)) (reached ++ [i.loc]) rc rest
    else
      dfsAddChildren (sett.add (Sum.inr i)) reached rc rest

/-- The `while` loop of `DFS`, with explicit fuel and expansion counter. -/
def dfsLoop (p : RouteProblem Loc Road) : ℕ → Frontier Loc Road →
    List Loc → Bool → ℕ → ℕ × SearchResult Loc Road
  | 0, _, _, _, count => (count, .outOfFuel)
  | fuel + 1, sett, reached, rc, count =>
    match sett.pop with
    | none => (count, .noSolution)
    | some (taken, sett1) =>
      if p.is_goal taken.loc then (count, .found taken)
      else
        match Node.expand_counted p taken count with
        | (count1, none) => (count1, .error)
        | (count1, some explored) =>
          let st := dfsAddChildren sett1 reached rc explored
          dfsLoop p fuel st.1 st.2 rc count1

/-- `DFS(problem, repeat_check)`: root node, immediate goal test, LIFO
frontier, optional reached list seeded with the root's location, then the
search loop. -/
def DFS (p : RouteProblem Loc Road) (repeat_check : Bool) (fuel count : ℕ) :
    ℕ × SearchResult Loc Road :=
  let rootNode : Node Loc Road := Node.make p.start none none 0
  if p.is_goal rootNode.loc then (count, .found rootNode)
  else
    let sett := Frontier.init rootNode true
    let reached : List Loc := if repeat_check then [rootNode.loc] else []
    dfsLoop p fuel sett reached repeat_check count

/-- Ghost instrumentation of `bfsLoop`: the sequence of nodes popped from the
frontier, in pop order, the final pop (solution or crash) included. -/
def bfsLoopPops (p : RouteProblem Loc Road) : ℕ → Frontier Loc Road →
    List (Node Loc Road) → Bool → List (Node Loc Road)
  | 0, _, _, _ => []
  | fuel + 1, sett, reached, rc =>
    match sett.pop with
    | none => []
    | some (taken, sett1) =>
      if p.is_goal taken.loc then [taken]
      else
        match taken.expand p with
        | none => [taken]
        | some explored =>
          let st := bfsAddChildren sett1 reached rc explored
          taken :: bfsLoopPops p fuel st.1 st.2 rc

/-- Ghost instrumentation of `BFS`: the popped-node trace of the whole run
(empty when the root is already the goal, since the loop is never entered). -/
def BFSpops (p : RouteProblem Loc Road) (repeat_check : Bool) (fuel : ℕ) :
    List (Node Loc Road) :=
  let root : Node Loc Road := Node.make p.start none none 0
  if p.is_goal root.loc then []
  else
    bfsLoopPops p fuel (Frontier.init root false)
      (if repeat_check then [root] else []) repeat_check

/-- Ghost instrumentation of `bfsLoop` with repeated-state checking: the
locations of the nodes added to the frontier during the loop, in order of
addition.  In that mode every frontier addition appends the same node to the
reached set at the same moment, so these are exactly the locations appended
to the reached set. -/
def bfsLoopAdded (p : RouteProblem Loc Road) : ℕ → Frontier Loc Road →
    List (Node Loc Road) → List Loc
  | 0, _, _ => []
  | fuel + 1, sett, reached =>
    match sett.pop with
    | none => []
    | some (taken, sett1) =>
      if p.is_goal taken.loc then []
      else
        match taken.expand p with
        | none => []
        | some explored =>
          let st := bfsAddChildren sett1 reached true explored
          (st.2.map Node.loc).drop reached.length ++ bfsLoopAdded p fuel st.1 st.2

/-- Ghost instrumentation of `dfsLoop` with repeated-state checking: the
locations of the nodes added to the frontier during the loop, in order of
addition (equally, the locations appended to the reached list). -/
def dfsLoopAdded (p : RouteProblem Loc Road) : ℕ → Frontier Loc Road →
    List Loc → List Loc
  | 0, _, _ => []
  | fuel + 1, sett, reached =>
    match sett.pop with
    | none => []
    | some (taken, sett1) =>
      if p.is_goal taken.loc then []
      else
        match taken.expand p with
        | none => []
        | some explored =>
          let st := dfsAddChildren sett1 reached true explored
          st.2.drop reached.length ++ dfsLoopAdded p fuel st.1 st.2

/-- The root node both traversals start from. -/
def rootNode (p : RouteProblem Loc Road) : Node Loc Road :=
  Node.make p.start none none 0

/-- The nodes of the search tree of `p`: the root, and every child that
expansion can generate from a tree node strictly below the depth limit. -/
inductive IsTreeNode (p : RouteProblem Loc Road) : Node Loc Road → Prop where
  | root : IsTreeNode p (rootNode p)
  | child {n : Node Loc Road} {r : Road} {c : Node Loc Road} :
      IsTreeNode p n → n.depth < depth_limit → r ∈ p.actions n.loc →
      Node.child_node p n r = some c → IsTreeNode p c

/-- The successor dict `get(start)` returns: reachable location ↦ cost. -/
def RoadMap.successors (m : RoadMap Loc Road) (start : Loc) : List (Loc × ℚ) :=
  (alookup m.connection_dict start).getD []

/-- The map invariant the spec states but the code does not enforce: every
named road segment's destination has a cost entry for the same start/end
pair.  Quantified over the entries of the (finite) road dict, so it is
decidable on concrete maps. -/
def WFRoads (p : RouteProblem Loc Road) : Prop :=
  ∀ e ∈ p.map.road_dict, ∀ rd ∈ e.2, (p.action_cost e.1 rd.2).isSome = true

/-- An upper bound on the number of actions available from any location. -/
def branchBound (p : RouteProblem Loc Road) : ℕ :=
  (p.map.road_dict.map (fun e => e.2.length)).foldr max 0

/-- `sizeBound b k` bounds the number of loop iterations a frontier node with
`k = depth_limit + 1 - depth` can still cause when branching is at most
`b`. -/
def sizeBound (b : ℕ) : ℕ → ℕ
  | 0 => 1
  | k + 1 => 1 + b * sizeBound b k

/-- Termination measure of a frontier: total remaining iteration budget. -/
def frontierMeasure (p : RouteProblem Loc Road) (F : List (Node Loc Road)) : ℕ :=
  (F.map (fun n => sizeBound (branchBound p) (depth_limit + 1 - n.depth))).sum

/-- A node all of whose expansion children already have their locations in
the reached set, and which is not a goal; such a node never needs to be
popped again. -/
def Handled (p : RouteProblem Loc Road) (RL : List Loc) (m : Node Loc Road) : Prop :=
  p.is_goal m.loc = false ∧
  (m.depth < depth_limit → ∀ r ∈ p.actions m.loc, ∀ c,
    Node.child_node p m r = some c → c.loc ∈ RL)

/-- A minimal-depth tree node for a location. -/
def MinRep (p : RouteProblem Loc Road) (l : Loc) (m : Node Loc Road) : Prop :=
  IsTreeNode p m ∧ m.loc = l ∧
  ∀ t, IsTreeNode p t → t.loc = l → m.depth ≤ t.depth

/-- The reached-set invariant of BFS with repeated-state checking: every
reached location has a minimal-depth representative that is either still in
the frontier or fully handled. -/
def Rstar (p : RouteProblem Loc Road) (F : List (Node Loc Road)) (RL : List Loc) :
    Prop :=
  ∀ l ∈ RL, ∃ m, MinRep p l m ∧ (m ∈ F ∨ Handled p RL m)

/-- The completeness invariant: every tree node strictly shallower than the
whole frontier has already had its location reached. -/
def Ginv (p : RouteProblem Loc Road) (F : List (Node Loc Road)) (RL : List Loc) :
    Prop :=
  ∀ t, IsTreeNode p t → (∀ x ∈ F, t.depth < x.depth) → t.loc ∈ RL

/-- The FIFO frontier window invariant: depths are non-decreasing along the
queue and any two differ by at most one. -/
def Winv (F : List (Node Loc Road)) : Prop :=
  F.Pairwise (fun a b => a.depth ≤ b.depth) ∧
  ∀ a ∈ F, ∀ b ∈ F, a.depth ≤ b.depth + 1

/-- The optimality invariant: some goal tree node at most as deep as `g`
still has an ancestor-or-self in the frontier. -/
def GoalLink (p : RouteProblem Loc Road) (F : List (Node Loc Road))
    (g : Node Loc Road) : Prop :=
  ∃ g', IsTreeNode p g' ∧ p.is_goal g'.loc = true ∧ g'.depth ≤ g.depth ∧
    ∃ a ∈ F, a ∈ g'.path

/-- A concrete two-location map: one named road `main` from `home` to
`store` with cost 2. -/
def exMap : RoadMap String String :=
  RoadMap.mk [("home", [("store", 2)])] [("home", [("main", "store")])] []

/-- Search for `store` starting at `home` on `exMap`. -/
def exGo : RouteProblem String String := RouteProblem.mk exMap "home" (some "store")

/-- A problem whose start is already its goal. -/
def exSelf : RouteProblem String String := RouteProblem.mk exMap "home" (some "home")

/-- A problem with no goal configured. -/
def exNoGoal : RouteProblem String String := RouteProblem.mk exMap "home" none

/-- A two-location cyclic map: named roads `ab : A → B` and `ba : B → A`. -/
def cycMap : RoadMap String String :=
  RoadMap.mk [("A", [("B", 1)]), ("B", [("A", 1)])]
    [("A", [("ab", "B")]), ("B", [("ba", "A")])] []

/-- A problem on the cyclic map whose goal is unreachable. -/
def cycProblem : RouteProblem String String := RouteProblem.mk cycMap "A" (some "Z")

/-- The completely empty road map. -/
def emptyMap : RoadMap String String := RoadMap.mk [] [] []

/-- The solution node `BFS`/`DFS` produce on `exGo`: `store` reached from
`home` via `main`. -/
def exFound : Node String String :=
  Node.make "store" (some (rootNode exGo)) (some "main") ((rootNode exGo).path_cost + 2)

/-! ### Structural lemmas about nodes, paths and the search tree -/

@[simp] lemma Node.loc_mk (l : Loc) (par : Option (Node Loc Road)) (r : Option Road)
    (c : ℚ) (d : ℕ) : (Node.mk l par r c d).loc = l := rfl

@[simp] lemma Node.parent_mk (l : Loc) (par : Option (Node Loc Road)) (r : Option Road)
    (c : ℚ) (d : ℕ) : (Node.mk l par r c d).parent = par := rfl

@[simp] lemma Node.road_mk (l : Loc) (par : Option (Node Loc Road)) (r : Option Road)
    (c : ℚ) (d : ℕ) : (Node.mk l par r c d).road = r := rfl

@[simp] lemma Node.path_cost_mk (l : Loc) (par : Option (Node Loc Road))
    (r : Option Road) (c : ℚ) (d : ℕ) : (Node.mk l par r c d).path_cost = c := rfl

@[simp] lemma Node.depth_mk (l : Loc) (par : Option (Node Loc Road)) (r : Option Road)
    (c : ℚ) (d : ℕ) : (Node.mk l par r c d).depth = d := rfl

lemma Node.make_none (l : Loc) (r : Option Road) (c : ℚ) :
    (Node.make l none r c : Node Loc Road) = Node.mk l none r c 0 := rfl

lemma Node.make_some (l : Loc) (q : Node Loc Road) (r : Option Road) (c : ℚ) :
    Node.make l (some q) r c = Node.mk l (some q) r c (q.depth + 1) := rfl

lemma Node.path_parent_none {n : Node Loc Road} (h : n.parent = none) :
    n.path = [n] := by
  cases n with
  | mk l par r c d => cases par <;> simp_all [Node.path, Node.parent]

lemma Node.path_parent_some {n q : Node Loc Road} (h : n.parent = some q) :
    n.path = q.path ++ [n] := by
  cases n with
  | mk l par r c d => cases par <;> simp_all [Node.path, Node.parent]

lemma Node.mem_path_self (n : Node Loc Road) : n ∈ n.path := by
  cases n with
  | mk l par r c d => cases par <;> simp [Node.path]

/-- Inversion of a successful `child_node` call. -/
lemma child_node_spec {p : RouteProblem Loc Road} {n c : Node Loc Road} {r : Road}
    (h : Node.child_node p n r = some c) :
    p.result n.loc r = some c.loc ∧
    (∃ cost, p.action_cost n.loc c.loc = some cost ∧
      c.path_cost = n.path_cost + cost) ∧
    c.parent = some n ∧ c.road = some r ∧ c.depth = n.depth + 1 := by
  unfold Node.child_node at h
  cases hres : p.result n.loc r with
  | none => rw [hres] at h; exact absurd h (by simp)
  | some cl =>
    rw [hres] at h
    dsimp only at h
    cases hcost : p.action_cost n.loc cl with
    | none => rw [hcost] at h; exact absurd h (by simp)
    | some co =>
      rw [hcost] at h
      dsimp only at h
      have hc : c = Node.mk cl (some n) (some r) (n.path_cost + co) (n.depth + 1) := by
        rw [Node.make_some] at h
        exact (Option.some.injEq _ _ ▸ h).symm
      subst hc
      exact ⟨by simpa using hres, ⟨co, by simpa using hcost, rfl⟩, rfl, rfl, rfl⟩

/-- `child_node` only looks at the parent through its location and path cost;
in particular a node with the same location yields a child with the same
location and depth one more than its own. -/
lemma child_node_congr_loc {p : RouteProblem Loc Road} {n c : Node Loc Road} {r : Road}
    (h : Node.child_node p n r = some c) (m : Node Loc Road) (hloc : m.loc = n.loc) :
    ∃ c', Node.child_node p m r = some c' ∧ c'.loc = c.loc ∧
      c'.depth = m.depth + 1 ∧ c'.parent = some m := by
  obtain ⟨hres, ⟨co, hcost, _⟩, _, _, _⟩ := child_node_spec h
  refine ⟨Node.make c.loc (some m) (some r) (m.path_cost + co), ?_, rfl, rfl, rfl⟩
  unfold Node.child_node
  rw [hloc, hres]
  dsimp only
  rw [hcost]

lemma IsTreeNode.depth_le {p : RouteProblem Loc Road} {n : Node Loc Road}
    (h : IsTreeNode p n) : n.depth ≤ depth_limit := by
  induction h with
  | root => simp [rootNode, Node.make_none]
  | child _ hd _ hc _ =>
    have := (child_node_spec hc).2.2.2.2
    omega

lemma IsTreeNode.path_child {p : RouteProblem Loc Road} {n c : Node Loc Road} {r : Road}
    (hc : Node.child_node p n r = some c) : c.path = n.path ++ [c] :=
  Node.path_parent_some (child_node_spec hc).2.2.1

lemma root_mem_path {p : RouteProblem Loc Road} {n : Node Loc Road}
    (h : IsTreeNode p n) : rootNode p ∈ n.path := by
  induction h with
  | root => exact Node.mem_path_self _
  | child _ _ _ hc ih =>
    rw [IsTreeNode.path_child hc]
    exact List.mem_append_left _ ih

lemma mem_path_tree {p : RouteProblem Loc Road} {n : Node Loc Road}
    (h : IsTreeNode p n) : ∀ a ∈ n.path, IsTreeNode p a := by
  induction h with
  | root =>
    intro a ha
    rw [Node.path_parent_none (by simp [rootNode, Node.make_none, Node.parent])] at ha
    simp at ha; subst ha; exact IsTreeNode.root
  | child hn hd hr hc ih =>
    intro a ha
    rw [IsTreeNode.path_child hc] at ha
    rcases List.mem_append.mp ha with h1 | h2
    · exact ih a h1
    · simp at h2; subst h2; exact IsTreeNode.child hn hd hr hc

lemma mem_path_depth_le {p : RouteProblem Loc Road} {n : Node Loc Road}
    (h : IsTreeNode p n) : ∀ a ∈ n.path, a.depth ≤ n.depth := by
  induction h with
  | root =>
    intro a ha
    rw [Node.path_parent_none (by simp [rootNode, Node.make_none, Node.parent])] at ha
    simp at ha; subst ha; omega
  | child hn hd hr hc ih =>
    intro a ha
    have hdc := (child_node_spec hc).2.2.2.2
    rw [IsTreeNode.path_child hc] at ha
    rcases List.mem_append.mp ha with h1 | h2
    · have := ih a h1; omega
    · simp at h2; subst h2; omega

lemma mem_path_depth_lt {p : RouteProblem Loc Road} {n : Node Loc Road}
    (h : IsTreeNode p n) : ∀ a ∈ n.path, a ≠ n → a.depth < n.depth := by
  induction h with
  | root =>
    intro a ha hne
    rw [Node.path_parent_none (by simp [rootNode, Node.make_none, Node.parent])] at ha
    simp at ha; exact absurd ha hne
  | child hn hd hr hc ih =>
    intro a ha hne
    have hdc := (child_node_spec hc).2.2.2.2
    rw [IsTreeNode.path_child hc] at ha
    rcases List.mem_append.mp ha with h1 | h2
    · have := mem_path_depth_le hn a h1; omega
    · simp at h2; exact absurd h2 hne

/-- Every non-final element of the path of a tree node has a successor on the
path which is one of its expansion children. -/
lemma path_next {p : RouteProblem Loc Road} {g : Node Loc Road}
    (h : IsTreeNode p g) : ∀ a ∈ g.path, a ≠ g →
    ∃ a' r, a' ∈ g.path ∧ r ∈ p.actions a.loc ∧ a.depth < depth_limit ∧
      Node.child_node p a r = some a' := by
  induction h with
  | root =>
    intro a ha hne
    rw [Node.path_parent_none (by simp [rootNode, Node.make_none, Node.parent])] at ha
    simp at ha; exact absurd ha hne
  | @child n r c hn hd hr hc ih =>
    intro a ha hne
    rw [IsTreeNode.path_child hc] at ha
    rcases List.mem_append.mp ha with h1 | h2
    · by_cases han : a = n
      · subst han
        exact ⟨c, r, by rw [IsTreeNode.path_child hc]; simp, hr, hd, hc⟩
      · obtain ⟨a', r', hmem, hr', hd', hc'⟩ := ih a h1 han
        exact ⟨a', r', by rw [IsTreeNode.path_child hc]; exact List.mem_append_left _ hmem,
          hr', hd', hc'⟩
    · simp at h2; subst h2
      exact absurd rfl hne

/-! ### Association-list and `listMapOpt` helper lemmas -/

lemma alookup_mem {α β : Type} [DecidableEq α] {l : List (α × β)} {k : α} {v : β}
    (h : alookup l k = some v) : (k, v) ∈ l := by
  induction l with
  | nil => simp [alookup] at h
  | cons a t ih =>
    obtain ⟨a1, a2⟩ := a
    unfold alookup at h
    by_cases hk : a1 = k
    · subst hk; simp at h; subst h; exact List.mem_cons_self _ _
    · rw [if_neg hk] at h
      exact List.mem_cons_of_mem _ (ih h)

lemma alookup_isSome_of_mem_keys {α β : Type} [DecidableEq α] {l : List (α × β)}
    {k : α} (h : k ∈ l.map Prod.fst) : (alookup l k).isSome = true := by
  induction l with
  | nil => simp at h
  | cons a t ih =>
    obtain ⟨a1, a2⟩ := a
    unfold alookup
    by_cases hk : a1 = k
    · simp [hk]
    · rw [if_neg hk]
      apply ih
      simp only [List.map_cons] at h
      rcases List.mem_cons.mp h with h1 | h1
      · exact absurd h1.symm hk
      · exact h1

lemma alookup_append {α β : Type} [DecidableEq α] (l l' : List (α × β)) (k : α) :
    alookup (l ++ l') k = ((alookup l k).rec (alookup l' k) (fun v => some v)) := by
  induction l with
  | nil => simp [alookup]
  | cons a t ih =>
    obtain ⟨a1, a2⟩ := a
    by_cases hk : a1 = k <;> simp [alookup, hk, ih]

lemma alookup_dictSetdefault_nil {α β γ : Type} [DecidableEq α]
    (l : List (α × List (β × γ))) (k x : α) :
    (alookup (dictSetdefault l k []) x).getD [] = (alookup l x).getD [] := by
  unfold dictSetdefault
  by_cases hp : (alookup l k).isSome
  · rw [if_pos hp]
  · rw [if_neg hp]
    rw [alookup_append]
    cases hx : alookup l x with
    | some v => simp
    | none =>
      simp only []
      by_cases hxk : k = x
      · subst hxk
        simp [alookup]
      · simp [alookup, hxk]

lemma listMapOpt_length {α β : Type} {f : α → Option β} :
    ∀ {xs : List α} {ys : List β}, listMapOpt f xs = some ys → ys.length = xs.length := by
  intro xs
  induction xs with
  | nil => intro ys h; simp [listMapOpt] at h; simp [← h]
  | cons a t ih =>
    intro ys h
    unfold listMapOpt at h
    cases hfa : f a with
    | none => rw [hfa] at h; exact absurd h (by simp)
    | some b =>
      rw [hfa] at h; dsimp only at h
      cases hrec : listMapOpt f t with
      | none => rw [hrec] at h; exact absurd h (by simp)
      | some bs =>
        rw [hrec] at h; dsimp only at h
        have : ys = b :: bs := by simpa using h.symm
        subst this
        simp [ih hrec]

lemma listMapOpt_get {α β : Type} {f : α → Option β} :
    ∀ {xs : List α} {ys : List β}, listMapOpt f xs = some ys →
    ∀ i (hx : i < xs.length) (hy : i < ys.length),
      f (xs.get ⟨i, hx⟩) = some (ys.get ⟨i, hy⟩) := by
  intro xs
  induction xs with
  | nil => intro ys h i hx; simp at hx
  | cons a t ih =>
    intro ys h i hx hy
    unfold listMapOpt at h
    cases hfa : f a with
    | none => rw [hfa] at h; exact absurd h (by simp)
    | some b =>
      rw [hfa] at h; dsimp only at h
      cases hrec : listMapOpt f t with
      | none => rw [hrec] at h; exact absurd h (by simp)
      | some bs =>
        rw [hrec] at h; dsimp only at h
        have hys : ys = b :: bs := by simpa using h.symm
        subst hys
        cases i with
        | zero => simpa using hfa
        | succ j =>
          exact ih hrec j (by simpa using hx) (by simpa using hy)

lemma listMapOpt_mem_source {α β : Type} {f : α → Option β} :
    ∀ {xs : List α} {ys : List β}, listMapOpt f xs = some ys →
    ∀ y ∈ ys, ∃ x ∈ xs, f x = some y := by
  intro xs
  induction xs with
  | nil =>
    intro ys h y hy
    simp [listMapOpt] at h
    subst h; simp at hy
  | cons a t ih =>
    intro ys h y hy
    unfold listMapOpt at h
    cases hfa : f a with
    | none => rw [hfa] at h; exact absurd h (by simp)
    | some b =>
      rw [hfa] at h; dsimp only at h
      cases hrec : listMapOpt f t with
      | none => rw [hrec] at h; exact absurd h (by simp)
      | some bs =>
        rw [hrec] at h; dsimp only at h
        have hys : ys = b :: bs := by simpa using h.symm
        subst hys
        rcases List.mem_cons.mp hy with h1 | h2
        · exact ⟨a, List.mem_cons_self _ _, h1 ▸ hfa⟩
        · obtain ⟨x, hx, hfx⟩ := ih hrec y h2
          exact ⟨x, List.mem_cons_of_mem _ hx, hfx⟩

lemma listMapOpt_mem_target {α β : Type} {f : α → Option β} :
    ∀ {xs : List α} {ys : List β}, listMapOpt f xs = some ys →
    ∀ x ∈ xs, ∀ y, f x = some y → y ∈ ys := by
  intro xs
  induction xs with
  | nil => intro ys h x hx; simp at hx
  | cons a t ih =>
    intro ys h x hx y hfy
    unfold listMapOpt at h
    cases hfa : f a with
    | none => rw [hfa] at h; exact absurd h (by simp)
    | some b =>
      rw [hfa] at h; dsimp only at h
      cases hrec : listMapOpt f t with
      | none => rw [hrec] at h; exact absurd h (by simp)
      | some bs =>
        rw [hrec] at h; dsimp only at h
        have hys : ys = b :: bs := by simpa using h.symm
        subst hys
        rcases List.mem_cons.mp hx with h1 | h2
        · subst h1
          rw [hfa] at hfy
          simp at hfy
          simp [hfy]
        · exact List.mem_cons_of_mem _ (ih hrec x h2 y hfy)

lemma listMapOpt_isSome {α β : Type} {f : α → Option β} :
    ∀ {xs : List α}, (∀ x ∈ xs, (f x).isSome = true) →
    ∃ ys, listMapOpt f xs = some ys := by
  intro xs
  induction xs with
  | nil => intro _; exact ⟨[], rfl⟩
  | cons a t ih =>
    intro h
    obtain ⟨b, hb⟩ := Option.isSome_iff_exists.mp (h a (List.mem_cons_self _ _))
    obtain ⟨bs, hbs⟩ := ih (fun x hx => h x (List.mem_cons_of_mem _ hx))
    exact ⟨b :: bs, by unfold listMapOpt; rw [hb]; dsimp only; rw [hbs]⟩

/-! ### Frontier lemmas -/

lemma Frontier.pop_fifo_nil : (Frontier.mk false ([] : List (Node Loc Road))).pop = none :=
  rfl

lemma Frontier.pop_fifo_cons (h : Node Loc Road) (t : List (Node Loc Road)) :
    (Frontier.mk false (h :: t)).pop = some (h, Frontier.mk false t) := rfl

lemma Frontier.pop_mem {f : Frontier Loc Road} {n : Node Loc Road}
    {f' : Frontier Loc Road} (h : f.pop = some (n, f')) :
    n ∈ f.nodes ∧ ∀ m ∈ f'.nodes, m ∈ f.nodes := by
  unfold Frontier.pop at h
  by_cases hl : f.lifo
  · rw [if_pos hl] at h
    cases hg : f.nodes.getLast? with
    | none => rw [hg] at h; exact absurd h (by simp)
    | some x =>
      rw [hg] at h
      simp only [Option.some.injEq, Prod.mk.injEq] at h
      obtain ⟨h1, h2⟩ := h
      subst h1
      constructor
      · obtain ⟨hne, heq⟩ := List.mem_getLast?_eq_getLast (Option.mem_def.mpr hg)
        exact heq ▸ List.getLast_mem hne
      · intro m hm
        rw [← h2] at hm
        simp at hm
        exact List.dropLast_sublist f.nodes |>.mem hm
  · rw [if_neg hl] at h
    cases hn : f.nodes with
    | nil => rw [hn] at h; exact absurd h (by simp)
    | cons x t =>
      rw [hn] at h
      simp only [Option.some.injEq, Prod.mk.injEq] at h
      obtain ⟨h1, h2⟩ := h
      subst h1
      constructor
      · exact List.mem_cons_self _ _
      · intro m hm
        rw [← h2] at hm
        simp at hm
        exact List.mem_cons_of_mem _ hm

/-- The rc-mode child-processing step of BFS: the same sublist of the
children is appended to both the frontier and the reached set; each appended
node was fresh; afterwards every child's location is reached. -/
lemma bfsAddChildren_true_spec :
    ∀ (l : List (Node Loc Road)) (s : Frontier Loc Road) (R : List (Node Loc Road)),
    ∃ added : List (Node Loc Road),
      bfsAddChildren s R true l = (Frontier.mk s.lifo (s.nodes ++ added), R ++ added) ∧
      added.Sublist l ∧
      (∀ a ∈ added, a.loc ∉ R.map Node.loc) ∧
      (∀ c ∈ l, c.loc ∈ (R ++ added).map Node.loc) ∧
      ((R.map Node.loc).Nodup → ((R ++ added).map Node.loc).Nodup) := by
  intro l
  induction l with
  | nil =>
    intro s R
    exact ⟨[], by simp [bfsAddChildren], by simp, by simp, by simp, by simp⟩
  | cons i rest ih =>
    intro s R
    by_cases hmem : R.any (fun m => decide (m.loc = i.loc)) = true
    · obtain ⟨added, heq, hsub, hfresh, hall, hnd⟩ := ih s R
      refine ⟨added, ?_, hsub.cons _, hfresh, ?_, hnd⟩
      · rw [bfsAddChildren, if_pos rfl, if_pos hmem]
        exact heq
      · intro c hc
        rcases List.mem_cons.mp hc with h1 | h2
        · subst h1
          have : c.loc ∈ R.map Node.loc := by
            simp only [List.any_eq_true, decide_eq_true_eq] at hmem
            obtain ⟨m, hm, hml⟩ := hmem
            exact List.mem_map.mpr ⟨m, hm, hml⟩
          rw [List.map_append]
          exact List.mem_append_left _ this
        · exact hall c h2
    · obtain ⟨added, heq, hsub, hfresh, hall, hnd⟩ := ih (s.add (Sum.inr i)) (R ++ [i])
      have hfreshi : i.loc ∉ R.map Node.loc := by
        intro hc
        apply hmem
        simp only [List.any_eq_true, decide_eq_true_eq]
        obtain ⟨m, hm, hml⟩ := List.mem_map.mp hc
        exact ⟨m, hm, hml⟩
      refine ⟨i :: added, ?_, hsub.cons₂ _, ?_, ?_, ?_⟩
      · rw [bfsAddChildren, if_pos rfl, if_neg hmem]
        rw [heq]
        simp [Frontier.add]
      · intro a ha
        rcases List.mem_cons.mp ha with h1 | h2
        · subst h1; exact hfreshi
        · intro hc
          exact hfresh a h2 (by rw [List.map_append]; exact List.mem_append_left _ hc)
      · intro c hc
        rcases List.mem_cons.mp hc with h1 | h2
        · subst h1
          rw [List.map_append]
          refine List.mem_append_right _ ?_
          simp
        · have := hall c h2
          rw [List.map_append] at this ⊢
          rcases List.mem_append.mp this with h3 | h3
          · rw [List.map_append] at h3
            rcases List.mem_append.mp h3 with h4 | h4
            · exact List.mem_append_left _ h4
            · refine List.mem_append_right _ ?_
              simp at h4
              simp [h4]
          · refine List.mem_append_right _ ?_
            simp [h3]
      · intro hndR
        have hndRi : ((R ++ [i]).map Node.loc).Nodup := by
          rw [List.map_append]
          simp only [List.map_cons, List.map_nil]
          rw [List.nodup_append]
          exact ⟨hndR, List.nodup_singleton _, by
            intro x hx
            simp only [List.mem_singleton]
            intro hxi
            subst hxi
            exact hfreshi hx⟩
        have := hnd hndRi
        simpa using this

/-- The no-repeat-check child-processing step: every child is appended to the
frontier and the reached set is untouched. -/
lemma bfsAddChildren_false_spec :
    ∀ (l : List (Node Loc Road)) (s : Frontier Loc Road) (R : List (Node Loc Road)),
    bfsAddChildren s R false l = (Frontier.mk s.lifo (s.nodes ++ l), R) := by
  intro l
  induction l with
  | nil => intro s R; simp [bfsAddChildren]
  | cons i rest ih =>
    intro s R
    rw [bfsAddChildren, if_neg (by simp)]
    rw [ih]
    simp [Frontier.add]

/-- The rc-mode child-processing step of DFS: the appended reached locations
are exactly the locations of the nodes appended to the frontier. -/
lemma dfsAddChildren_true_spec :
    ∀ (l : List (Node Loc Road)) (s : Frontier Loc Road) (R : List Loc),
    ∃ added : List (Node Loc Road),
      dfsAddChildren s R true l =
        (Frontier.mk s.lifo (s.nodes ++ added), R ++ added.map Node.loc) ∧
      added.Sublist l ∧
      (∀ a ∈ added, a.loc ∉ R) ∧
      (∀ c ∈ l, c.loc ∈ R ++ added.map Node.loc) ∧
      (R.Nodup → (R ++ added.map Node.loc).Nodup) := by
  intro l
  induction l with
  | nil =>
    intro s R
    exact ⟨[], by simp [dfsAddChildren], by simp, by simp, by simp, by simp⟩
  | cons i rest ih =>
    intro s R
    by_cases hmem : i.loc ∈ R
    · obtain ⟨added, heq, hsub, hfresh, hall, hnd⟩ := ih s R
      refine ⟨added, ?_, hsub.cons _, hfresh, ?_, hnd⟩
      · rw [dfsAddChildren, if_pos rfl, if_pos hmem]
        exact heq
      · intro c hc
        rcases List.mem_cons.mp hc with h1 | h2
        · subst h1; exact List.mem_append_left _ hmem
        · exact hall c h2
    · obtain ⟨added, heq, hsub, hfresh, hall, hnd⟩ := ih (s.add (Sum.inr i)) (R ++ [i.loc])
      refine ⟨i :: added, ?_, hsub.cons₂ _, ?_, ?_, ?_⟩
      · rw [dfsAddChildren, if_pos rfl, if_neg hmem]
        rw [heq]
        simp [Frontier.add]
      · intro a ha
        rcases List.mem_cons.mp ha with h1 | h2
        · subst h1; exact hmem
        · intro hc
          exact hfresh a h2 (List.mem_append_left _ hc)
      · intro c hc
        rcases List.mem_cons.mp hc with h1 | h2
        · subst h1
          refine List.mem_append_right _ ?_
          simp
        · have := hall c h2
          rcases List.mem_append.mp this with h3 | h3
          · rcases List.mem_append.mp h3 with h4 | h4
            · exact List.mem_append_left _ h4
            · refine List.mem_append_right _ ?_
              simp at h4
              simp [h4]
          · refine List.mem_append_right _ ?_
            simp [h3]
      · intro hndR
        have hndRi : (R ++ [i.loc]).Nodup := by
          rw [List.nodup_append]
          exact ⟨hndR, List.nodup_singleton _, by
            intro x hx
            simp only [List.mem_singleton]
            intro hxi
            subst hxi
            exact hmem hx⟩
        have := hnd hndRi
        simpa using this

/-- The no-repeat-check child-processing step of DFS. -/
lemma dfsAddChildren_false_spec :
    ∀ (l : List (Node Loc Road)) (s : Frontier Loc Road) (R : List Loc),
    dfsAddChildren s R false l = (Frontier.mk s.lifo (s.nodes ++ l), R) := by
  intro l
  induction l with
  | nil => intro s R; simp [dfsAddChildren]
  | cons i rest ih =>
    intro s R
    rw [dfsAddChildren, if_neg (by simp)]
    rw [ih]
    simp [Frontier.add]

/-! ### Expansion lemmas -/

lemma expand_at_limit {p : RouteProblem Loc Road} {n : Node Loc Road}
    (h : depth_limit ≤ n.depth) : Node.expand p n = some [] := by
  unfold Node.expand
  rw [if_pos (by omega)]

lemma expand_below_limit {p : RouteProblem Loc Road} {n : Node Loc Road}
    (h : n.depth < depth_limit) :
    Node.expand p n = listMapOpt (fun road => Node.child_node p n road) (p.actions n.loc) := by
  unfold Node.expand
  rw [if_neg (by omega)]

/-- A successful expansion below the depth limit yields children of the
popped node, one per action. -/
lemma expand_children {p : RouteProblem Loc Road} {n : Node Loc Road}
    {explored : List (Node Loc Road)} (h : Node.expand p n = some explored) :
    ∀ c ∈ explored, n.depth < depth_limit ∧
      ∃ r ∈ p.actions n.loc, Node.child_node p n r = some c := by
  intro c hc
  by_cases hd : n.depth < depth_limit
  · rw [expand_below_limit hd] at h
    obtain ⟨r, hr, hcr⟩ := listMapOpt_mem_source h c hc
    exact ⟨hd, r, hr, hcr⟩
  · rw [expand_at_limit (by omega)] at h
    simp at h
    subst h
    simp at hc

lemma expand_tree {p : RouteProblem Loc Road} {n : Node Loc Road}
    {explored : List (Node Loc Road)} (hn : IsTreeNode p n)
    (h : Node.expand p n = some explored) :
    ∀ c ∈ explored, IsTreeNode p c ∧ c.depth = n.depth + 1 := by
  intro c hc
  obtain ⟨hd, r, hr, hcr⟩ := expand_children h c hc
  exact ⟨IsTreeNode.child hn hd hr hcr, (child_node_spec hcr).2.2.2.2⟩

/-- Membership of a specific child in a successful expansion. -/
lemma expand_mem {p : RouteProblem Loc Road} {n : Node Loc Road}
    {explored : List (Node Loc Road)} {r : Road} {c : Node Loc Road}
    (h : Node.expand p n = some explored) (hd : n.depth < depth_limit)
    (hr : r ∈ p.actions n.loc) (hc : Node.child_node p n r = some c) :
    c ∈ explored := by
  rw [expand_below_limit hd] at h
  exact listMapOpt_mem_target h r hr c hc

/-! ### Well-formedness: expansion never raises -/

lemma wf_cost {p : RouteProblem Loc Road} (hwf : WFRoads p) {loc dest : Loc} {r : Road}
    (h : p.result loc r = some dest) : (p.action_cost loc dest).isSome = true := by
  unfold RouteProblem.result RoadMap.getRes at h
  cases hrd : alookup p.map.road_dict loc with
  | none => rw [hrd] at h; simp [alookup] at h
  | some inner =>
    rw [hrd] at h
    simp only [Option.getD_some] at h
    exact hwf (loc, inner) (alookup_mem hrd) (r, dest) (alookup_mem h)

lemma actions_result {p : RouteProblem Loc Road} {loc : Loc} {r : Road}
    (h : r ∈ p.actions loc) : (p.result loc r).isSome = true := by
  unfold RouteProblem.actions at h
  unfold RouteProblem.result RoadMap.getRes
  unfold RoadMap.roadsFrom at h
  exact alookup_isSome_of_mem_keys h

lemma child_node_isSome_of_wf {p : RouteProblem Loc Road} (hwf : WFRoads p)
    {n : Node Loc Road} {r : Road} (h : r ∈ p.actions n.loc) :
    (Node.child_node p n r).isSome = true := by
  obtain ⟨dest, hdest⟩ := Option.isSome_iff_exists.mp (actions_result h)
  obtain ⟨co, hco⟩ := Option.isSome_iff_exists.mp (wf_cost hwf hdest)
  unfold Node.child_node
  rw [hdest]
  dsimp only
  rw [hco]
  simp

lemma expand_isSome_of_wf {p : RouteProblem Loc Road} (hwf : WFRoads p)
    (n : Node Loc Road) : (Node.expand p n).isSome = true := by
  unfold Node.expand
  by_cases hd : n.depth ≥ depth_limit
  · rw [if_pos hd]; simp
  · rw [if_neg hd]
    obtain ⟨ys, hys⟩ := @listMapOpt_isSome _ _
      (fun road => Node.child_node p n road) (p.actions n.loc)
      (fun r hr => child_node_isSome_of_wf hwf hr)
    simp [hys]

/-! ### Basic facts about the search loops -/

lemma rootNode_depth (p : RouteProblem Loc Road) : (rootNode p).depth = 0 := rfl

lemma rootNode_parent (p : RouteProblem Loc Road) : (rootNode p).parent = none := rfl

lemma tree_depth_zero {p : RouteProblem Loc Road} {n : Node Loc Road}
    (h : IsTreeNode p n) (hd : n.depth = 0) : n = rootNode p := by
  cases h with
  | root => rfl
  | child hn hdl hr hc =>
    have := (child_node_spec hc).2.2.2.2
    omega

/-- A tree node with a parent was built by `child_node` from that parent via
a named road. -/
lemma tree_parent_inv {p : RouteProblem Loc Road} {c : Node Loc Road}
    (h : IsTreeNode p c) : ∀ q, c.parent = some q →
    ∃ r, c.road = some r ∧ r ∈ p.actions q.loc ∧ p.result q.loc r = some c.loc ∧
      c.depth = q.depth + 1 := by
  cases h with
  | root =>
    intro q hq
    rw [rootNode_parent] at hq
    exact absurd hq (by simp)
  | @child n r c hn hdl hr hc =>
    intro q hq
    obtain ⟨hres, _, hpar, hroad, hdep⟩ := child_node_spec hc
    rw [hpar] at hq
    have : n = q := by simpa using hq
    subst this
    exact ⟨r, hroad, hr, hres, hdep⟩

lemma tree_path_length {p : RouteProblem Loc Road} {n : Node Loc Road}
    (h : IsTreeNode p n) : n.path.length = n.depth + 1 := by
  induction h with
  | root =>
    rw [Node.path_parent_none (rootNode_parent p), rootNode_depth]
    rfl
  | @child m r c hn hdl hr hc ih =>
    rw [IsTreeNode.path_child hc, (child_node_spec hc).2.2.2.2]
    simp [ih]

/-- `solution_with_roads` is the `(road, loc)` projection of `path`, the root
included; this holds for every node. -/
lemma solution_with_roads_eq_path_map : ∀ (n : Node Loc Road),
    n.solution_with_roads = n.path.map (fun m => (m.road, m.loc))
  | .mk l none r c d => by simp [Node.solution_with_roads, Node.path]
  | .mk l (some q) r c d => by
    simp only [Node.solution_with_roads, Node.path, List.map_append]
    rw [solution_with_roads_eq_path_map q]
    simp

lemma bfsAddChildren_nodes_sub {l : List (Node Loc Road)} {s : Frontier Loc Road}
    {R : List (Node Loc Road)} {rc : Bool} :
    ∀ m ∈ (bfsAddChildren s R rc l).1.nodes, m ∈ s.nodes ∨ m ∈ l := by
  intro m hm
  cases rc with
  | true =>
    obtain ⟨added, heq, hsub, _, _, _⟩ := bfsAddChildren_true_spec l s R
    rw [heq] at hm
    rcases List.mem_append.mp hm with h | h
    · exact Or.inl h
    · exact Or.inr (hsub.mem h)
  | false =>
    rw [bfsAddChildren_false_spec] at hm
    exact List.mem_append.mp hm

lemma dfsAddChildren_nodes_sub {l : List (Node Loc Road)} {s : Frontier Loc Road}
    {R : List Loc} {rc : Bool} :
    ∀ m ∈ (dfsAddChildren s R rc l).1.nodes, m ∈ s.nodes ∨ m ∈ l := by
  intro m hm
  cases rc with
  | true =>
    obtain ⟨added, heq, hsub, _, _, _⟩ := dfsAddChildren_true_spec l s R
    rw [heq] at hm
    rcases List.mem_append.mp hm with h | h
    · exact Or.inl h
    · exact Or.inr (hsub.mem h)
  | false =>
    rw [dfsAddChildren_false_spec] at hm
    exact List.mem_append.mp hm

lemma bfsLoop_found_goal {p : RouteProblem Loc Road} :
    ∀ {fuel : ℕ} {sett : Frontier Loc Road} {R : List (Node Loc Road)} {rc : Bool}
    {count c' : ℕ} {n : Node Loc Road},
    bfsLoop p fuel sett R rc count = (c', .found n) → p.is_goal n.loc = true := by
  intro fuel
  induction fuel with
  | zero =>
    intro sett R rc count c' n h
    rw [bfsLoop] at h
    simp at h
  | succ fuel ih =>
    intro sett R rc count c' n h
    rw [bfsLoop] at h
    cases hpop : sett.pop with
    | none => rw [hpop] at h; simp at h
    | some pr =>
      obtain ⟨taken, sett1⟩ := pr
      rw [hpop] at h
      dsimp only at h
      by_cases hg : p.is_goal taken.loc
      · rw [if_pos hg] at h
        simp only [Prod.mk.injEq] at h
        obtain ⟨_, h2⟩ := h
        cases h2
        exact hg
      · rw [if_neg hg, Node.expand_counted] at h
        cases hexp : Node.expand p taken with
        | none => rw [hexp] at h; simp at h
        | some explored =>
          rw [hexp] at h
          dsimp only at h
          exact ih h

lemma dfsLoop_found_goal {p : RouteProblem Loc Road} :
    ∀ {fuel : ℕ} {sett : Frontier Loc Road} {R : List Loc} {rc : Bool}
    {count c' : ℕ} {n : Node Loc Road},
    dfsLoop p fuel sett R rc count = (c', .found n) → p.is_goal n.loc = true := by
  intro fuel
  induction fuel with
  | zero =>
    intro sett R rc count c' n h
    rw [dfsLoop] at h
    simp at h
  | succ fuel ih =>
    intro sett R rc count c' n h
    rw [dfsLoop] at h
    cases hpop : sett.pop with
    | none => rw [hpop] at h; simp at h
    | some pr =>
      obtain ⟨taken, sett1⟩ := pr
      rw [hpop] at h
      dsimp only at h
      by_cases hg : p.is_goal taken.loc
      · rw [if_pos hg] at h
        simp only [Prod.mk.injEq] at h
        obtain ⟨_, h2⟩ := h
        cases h2
        exact hg
      · rw [if_neg hg, Node.expand_counted] at h
        cases hexp : Node.expand p taken with
        | none => rw [hexp] at h; simp at h
        | some explored =>
          rw [hexp] at h
          dsimp only at h
          exact ih h

lemma bfsLoop_found_tree {p : RouteProblem Loc Road} :
    ∀ {fuel : ℕ} {sett : Frontier Loc Road} {R : List (Node Loc Road)} {rc : Bool}
    {count c' : ℕ} {n : Node Loc Road},
    (∀ m ∈ sett.nodes, IsTreeNode p m) →
    bfsLoop p fuel sett R rc count = (c', .found n) → IsTreeNode p n := by
  intro fuel
  induction fuel with
  | zero =>
    intro sett R rc count c' n _ h
    rw [bfsLoop] at h
    simp at h
  | succ fuel ih =>
    intro sett R rc count c' n hT h
    rw [bfsLoop] at h
    cases hpop : sett.pop with
    | none => rw [hpop] at h; simp at h
    | some pr =>
      obtain ⟨taken, sett1⟩ := pr
      rw [hpop] at h
      dsimp only at h
      have htaken : IsTreeNode p taken := hT _ (Frontier.pop_mem hpop).1
      by_cases hg : p.is_goal taken.loc
      · rw [if_pos hg] at h
        simp only [Prod.mk.injEq] at h
        obtain ⟨_, h2⟩ := h
        cases h2
        exact htaken
      · rw [if_neg hg, Node.expand_counted] at h
        cases hexp : Node.expand p taken with
        | none => rw [hexp] at h; simp at h
        | some explored =>
          rw [hexp] at h
          dsimp only at h
          refine ih ?_ h
          intro m hm
          rcases bfsAddChildren_nodes_sub m hm with h1 | h1
          · exact hT _ ((Frontier.pop_mem hpop).2 m h1)
          · exact (expand_tree htaken hexp m h1).1

lemma dfsLoop_found_tree {p : RouteProblem Loc Road} :
    ∀ {fuel : ℕ} {sett : Frontier Loc Road} {R : List Loc} {rc : Bool}
    {count c' : ℕ} {n : Node Loc Road},
    (∀ m ∈ sett.nodes, IsTreeNode p m) →
    dfsLoop p fuel sett R rc count = (c', .found n) → IsTreeNode p n := by
  intro fuel
  induction fuel with
  | zero =>
    intro sett R rc count c' n _ h
    rw [dfsLoop] at h
    simp at h
  | succ fuel ih =>
    intro sett R rc count c' n hT h
    rw [dfsLoop] at h
    cases hpop : sett.pop with
    | none => rw [hpop] at h; simp at h
    | some pr =>
      obtain ⟨taken, sett1⟩ := pr
      rw [hpop] at h
      dsimp only at h
      have htaken : IsTreeNode p taken := hT _ (Frontier.pop_mem hpop).1
      by_cases hg : p.is_goal taken.loc
      · rw [if_pos hg] at h
        simp only [Prod.mk.injEq] at h
        obtain ⟨_, h2⟩ := h
        cases h2
        exact htaken
      · rw [if_neg hg, Node.expand_counted] at h
        cases hexp : Node.expand p taken with
        | none => rw [hexp] at h; simp at h
        | some explored =>
          rw [hexp] at h
          dsimp only at h
          refine ih ?_ h
          intro m hm
          rcases dfsAddChildren_nodes_sub m hm with h1 | h1
          · exact hT _ ((Frontier.pop_mem hpop).2 m h1)
          · exact (expand_tree htaken hexp m h1).1

/-- A node returned by `BFS` is a goal tree node. -/
lemma BFS_found_tree {p : RouteProblem Loc Road} {rc : Bool} {fuel count c' : ℕ}
    {n : Node Loc Road} (h : BFS p rc fuel count = (c', .found n)) :
    IsTreeNode p n ∧ p.is_goal n.loc = true := by
  unfold BFS at h
  by_cases hg : p.is_goal (Node.make p.start none none 0 : Node Loc Road).loc
  · rw [if_pos hg] at h
    simp only [Prod.mk.injEq] at h
    obtain ⟨_, h2⟩ := h
    cases h2
    exact ⟨IsTreeNode.root, hg⟩
  · rw [if_neg hg] at h
    dsimp only at h
    refine ⟨bfsLoop_found_tree ?_ h, bfsLoop_found_goal h⟩
    intro m hm
    simp only [Frontier.init] at hm
    simp at hm
    subst hm
    exact IsTreeNode.root

/-- A node returned by `DFS` is a goal tree node. -/
lemma DFS_found_tree {p : RouteProblem Loc Road} {rc : Bool} {fuel count c' : ℕ}
    {n : Node Loc Road} (h : DFS p rc fuel count = (c', .found n)) :
    IsTreeNode p n ∧ p.is_goal n.loc = true := by
  unfold DFS at h
  by_cases hg : p.is_goal (Node.make p.start none none 0 : Node Loc Road).loc
  · rw [if_pos hg] at h
    simp only [Prod.mk.injEq] at h
    obtain ⟨_, h2⟩ := h
    cases h2
    exact ⟨IsTreeNode.root, hg⟩
  · rw [if_neg hg] at h
    dsimp only at h
    refine ⟨dfsLoop_found_tree ?_ h, dfsLoop_found_goal h⟩
    intro m hm
    simp only [Frontier.init] at hm
    simp at hm
    subst hm
    exact IsTreeNode.root

/-! ### Claim theorems -/

/-- C9: `isGoal(loc)` returns true iff `loc` equals the configured goal, and
when the goal is unset it returns false for every location. -/
theorem claim_C9 (p : RouteProblem Loc Road) (loc : Loc) :
    (p.is_goal loc = true ↔ p.goal = some loc) ∧
    (p.goal = none → p.is_goal loc = false) := by
  constructor
  · unfold RouteProblem.is_goal
    simp [eq_comm]
  · intro h
    unfold RouteProblem.is_goal
    simp [h]

/-- Witness for C9 at a concrete problem with no goal configured. -/
theorem claim_C9_witness :
    exNoGoal.goal = none ∧ exNoGoal.is_goal "store" = false :=
  ⟨rfl, (claim_C9 exNoGoal "store").2 rfl⟩

/-- C4: `add` appends one node, or each node of a sequence in order, at the
tail in both modes, leaving the discipline flag unchanged; `pop` removes the
head (earliest inserted) in FIFO mode and the tail element (most recently
inserted) in LIFO mode. -/
theorem claim_C4 (f : Frontier Loc Road) (n : Node Loc Road)
    (l : List (Node Loc Road)) :
    (f.add (Sum.inr n)).nodes = f.nodes ++ [n] ∧
    (f.add (Sum.inl l)).nodes = f.nodes ++ l ∧
    (f.add (Sum.inr n)).lifo = f.lifo ∧
    (f.add (Sum.inl l)).lifo = f.lifo ∧
    (f.lifo = false → ∀ h t, f.nodes = h :: t →
      f.pop = some (h, Frontier.mk false t)) ∧
    (f.lifo = true → ∀ l0 x, f.nodes = l0 ++ [x] →
      f.pop = some (x, Frontier.mk true l0)) := by
  refine ⟨rfl, rfl, rfl, rfl, ?_, ?_⟩
  · intro hl h t hn
    cases f with
    | mk fl fn =>
      simp only at hl hn
      subst hl
      subst hn
      rfl
  · intro hl l0 x hn
    cases f with
    | mk fl fn =>
      simp only at hl hn
      subst hl
      subst hn
      unfold Frontier.pop
      rw [if_pos rfl, List.getLast?_concat]
      simp [List.dropLast_concat]

/-- Witness for C4 at concrete FIFO and LIFO frontiers. -/
theorem claim_C4_witness :
    (Frontier.mk false [rootNode exGo]).pop =
      some (rootNode exGo, Frontier.mk false []) ∧
    (Frontier.mk true [rootNode exGo, exFound]).pop =
      some (exFound, Frontier.mk true [rootNode exGo]) :=
  ⟨(claim_C4 (Frontier.mk false [rootNode exGo]) (rootNode exGo) []).2.2.2.2.1 rfl
      (rootNode exGo) [] rfl,
    (claim_C4 (Frontier.mk true [rootNode exGo, exFound]) exFound []).2.2.2.2.2 rfl
      [rootNode exGo] exFound rfl⟩

/-- C6: when the start location is the goal, both traversals return the root
node, of depth 0 and path cost 0, without incrementing the expansion
counter. -/
theorem claim_C6 (p : RouteProblem Loc Road) (rc : Bool) (fuel count : ℕ)
    (h : p.is_goal p.start = true) :
    BFS p rc fuel count = (count, .found (rootNode p)) ∧
    DFS p rc fuel count = (count, .found (rootNode p)) ∧
    (rootNode p).depth = 0 ∧ (rootNode p).path_cost = 0 := by
  have hroot : p.is_goal (Node.make p.start none none 0 : Node Loc Road).loc = true := by
    rw [Node.make_none]
    simpa using h
  refine ⟨?_, ?_, rfl, rfl⟩
  · simp only [BFS, hroot, if_true]
    rfl
  · simp only [DFS, hroot, if_true]
    rfl

/-- Witness for C6 on a problem whose start is its goal. -/
theorem claim_C6_witness :
    BFS exSelf true 5 3 = (3, .found (rootNode exSelf)) ∧
    DFS exSelf false 5 3 = (3, .found (rootNode exSelf)) :=
  ⟨(claim_C6 exSelf true 5 3 rfl).1, (claim_C6 exSelf false 5 3 rfl).2.1⟩

/-- C2: `expand` increments the counter exactly once per call regardless of
the number of children; at or above the depth limit it yields no children;
below it, one child per action in order, whose location is
`result(loc, action)`, whose path cost adds `actionCost(loc, childLoc)`,
whose depth is the parent's plus one, and whose parent and road are the
current node and the action. -/
theorem claim_C2 (p : RouteProblem Loc Road) (n : Node Loc Road) (count : ℕ) :
    (Node.expand_counted p n count).1 = count + 1 ∧
    (depth_limit ≤ n.depth → (Node.expand_counted p n count).2 = some []) ∧
    (n.depth < depth_limit → ∀ l, (Node.expand_counted p n count).2 = some l →
      l.length = (p.actions n.loc).length ∧
      ∀ i (hi : i < l.length) (hi' : i < (p.actions n.loc).length),
        p.result n.loc ((p.actions n.loc).get ⟨i, hi'⟩) = some (l.get ⟨i, hi⟩).loc ∧
        (∃ cost, p.action_cost n.loc (l.get ⟨i, hi⟩).loc = some cost ∧
          (l.get ⟨i, hi⟩).path_cost = n.path_cost + cost) ∧
        (l.get ⟨i, hi⟩).depth = n.depth + 1 ∧
        (l.get ⟨i, hi⟩).parent = some n ∧
        (l.get ⟨i, hi⟩).road = some ((p.actions n.loc).get ⟨i, hi'⟩)) := by
  refine ⟨rfl, ?_, ?_⟩
  · intro hd
    exact expand_at_limit hd
  · intro hd l hl
    have hl' : listMapOpt (fun road => Node.child_node p n road) (p.actions n.loc) =
        some l := by
      have := expand_below_limit (p := p) hd
      rw [← this]
      exact hl
    refine ⟨listMapOpt_length hl', ?_⟩
    intro i hi hi'
    have hget := listMapOpt_get hl' i hi' hi
    obtain ⟨hres, hcost, hpar, hroad, hdep⟩ := child_node_spec hget
    exact ⟨hres, hcost, hdep, hpar, hroad⟩

/-- Witness for C2: the root of `exGo` expands to exactly one child and the
counter increments by one. -/
theorem claim_C2_witness :
    (Node.expand_counted exGo (rootNode exGo) 7).1 = 8 ∧
    ∃ l, (Node.expand_counted exGo (rootNode exGo) 7).2 = some l ∧
      l.length = (exGo.actions (rootNode exGo).loc).length := by
  have h := claim_C2 exGo (rootNode exGo) 7
  refine ⟨h.1, ?_⟩
  obtain ⟨l, hl⟩ : ∃ l, (Node.expand_counted exGo (rootNode exGo) 7).2 = some l :=
    Option.isSome_iff_exists.mp (by rfl)
  exact ⟨l, hl, (h.2.2 (by decide) l hl).1⟩

/-- C1 as stated is false on the code: `solution_with_roads` includes a pair
for the root, so its length is depth + 1, not depth; witnessed by a
traversal that returns the root itself. -/
theorem claim_C1_counterexample :
    (BFS exSelf false 1 0).2 = SearchResult.found (rootNode exSelf) ∧
    (rootNode exSelf).solution_with_roads.length ≠ (rootNode exSelf).depth := by
  exact ⟨rfl, by decide⟩

/-- C1 (amended): for every node returned by a traversal,
`solution_with_roads` produces one (road, resulting location) pair for every
node on the path including the root — the root's pair carrying no road — in
root-to-here order, so its length is the node's depth plus one, and its
location entries retrace the parent chain from root to the node. -/
theorem claim_C1_amended {p : RouteProblem Loc Road} {rc : Bool} {fuel count c' : ℕ}
    {n : Node Loc Road}
    (h : BFS p rc fuel count = (c', .found n) ∨ DFS p rc fuel count = (c', .found n)) :
    n.solution_with_roads = n.path.map (fun m => (m.road, m.loc)) ∧
    n.solution_with_roads.length = n.depth + 1 ∧
    n.solution_with_roads.map Prod.snd = n.path.map Node.loc := by
  have htree : IsTreeNode p n := by
    rcases h with h | h
    · exact (BFS_found_tree h).1
    · exact (DFS_found_tree h).1
  have h1 := solution_with_roads_eq_path_map n
  refine ⟨h1, ?_, ?_⟩
  · rw [h1, List.length_map, tree_path_length htree]
  · rw [h1, List.map_map]
    rfl

/-- Witness for the amended C1 on a run that returns the root. -/
theorem claim_C1_witness :
    (rootNode exSelf).solution_with_roads.length = (rootNode exSelf).depth + 1 :=
  (claim_C1_amended
    (Or.inl (rfl : BFS exSelf false 1 0 = (0, SearchResult.found (rootNode exSelf))))).2.1

/-- C8 as stated is false on the code: `get` on an absent start location
mutates the stored connection dict (Python `setdefault` inserts an empty
entry), so the stored mappings are not left unchanged. -/
theorem claim_C8_counterexample :
    (emptyMap.get "X" none).1 ≠ emptyMap := by
  decide

/-- C8 (amended): the lookup operations are total — absent lookups yield the
`none` sentinel inside the returned value, never a failure — and return
exactly the documented lookups; the sole mutation is `setdefault` inserting
an empty successor entry for an absent start, which changes no existing
entry and preserves the result of every lookup. -/
theorem claim_C8_amended (m : RoadMap Loc Road) (s e : Loc) (r : Road)
    (fin : Option Loc) (road : Option Road) :
    (m.get s none).2 = Sum.inl (m.successors s) ∧
    (m.get s (some e)).2 = Sum.inr (m.getCost s e) ∧
    (m.get_result s none).2 = Sum.inl (m.roadsFrom s) ∧
    (m.get_result s (some r)).2 = Sum.inr (m.getRes s r) ∧
    (m.get s fin).1 =
      { m with connection_dict := dictSetdefault m.connection_dict s [] } ∧
    (m.get_result s road).1 =
      { m with road_dict := dictSetdefault m.road_dict s [] } ∧
    (∀ x y, ((m.get s fin).1).getCost x y = m.getCost x y) ∧
    (∀ x, ((m.get s fin).1).successors x = m.successors x) ∧
    (∀ x, ((m.get s fin).1).roadsFrom x = m.roadsFrom x) ∧
    (∀ x y, ((m.get s fin).1).getRes x y = m.getRes x y) ∧
    (∀ x y, ((m.get_result s road).1).getCost x y = m.getCost x y) ∧
    (∀ x, ((m.get_result s road).1).successors x = m.successors x) ∧
    (∀ x, ((m.get_result s road).1).roadsFrom x = m.roadsFrom x) ∧
    (∀ x y, ((m.get_result s road).1).getRes x y = m.getRes x y) := by
  refine ⟨rfl, rfl, rfl, rfl, ?_, ?_, ?_, ?_, ?_, ?_, ?_, ?_, ?_, ?_⟩
  · cases fin <;> rfl
  · cases road <;> rfl
  · intro x y
    cases fin <;>
      simp [RoadMap.get, RoadMap.getCost, alookup_dictSetdefault_nil]
  · intro x
    cases fin <;>
      simp [RoadMap.get, RoadMap.successors, alookup_dictSetdefault_nil]
  · intro x
    cases fin <;> rfl
  · intro x y
    cases fin <;> rfl
  · intro x y
    cases road <;> rfl
  · intro x
    cases road <;> rfl
  · intro x
    cases road <;>
      simp [RoadMap.get_result, RoadMap.roadsFrom, alookup_dictSetdefault_nil]
  · intro x y
    cases road <;>
      simp [RoadMap.get_result, RoadMap.getRes, alookup_dictSetdefault_nil]

/-- C10: a road added without a name records no named segment, `actions`
enumerates only named segments, and every non-root node on a returned
solution path was reached from its parent via a named road segment. -/
theorem claim_C10 (m : RoadMap Loc Road) (s fin : Loc) (cost : ℚ)
    (p : RouteProblem Loc Road) (loc : Loc) (rc : Bool) (fuel count c' : ℕ)
    (n : Node Loc Road)
    (h : BFS p rc fuel count = (c', .found n) ∨ DFS p rc fuel count = (c', .found n)) :
    (m.add_road s fin none cost).road_dict = m.road_dict ∧
    p.actions loc = (p.map.roadsFrom loc).map Prod.fst ∧
    ∀ a ∈ n.path, ∀ q, a.parent = some q →
      ∃ r, a.road = some r ∧ r ∈ p.actions q.loc ∧
        p.map.getRes q.loc r = some a.loc := by
  have htree : IsTreeNode p n := by
    rcases h with h | h
    · exact (BFS_found_tree h).1
    · exact (DFS_found_tree h).1
  refine ⟨rfl, rfl, ?_⟩
  intro a ha q hq
  have hat : IsTreeNode p a := mem_path_tree htree a ha
  obtain ⟨r, hroad, hact, hres, _⟩ := tree_parent_inv hat q hq
  exact ⟨r, hroad, hact, hres⟩

/-- Witness for C10 on the concrete run of `BFS` over `exGo`. -/
theorem claim_C10_witness :
    (exMap.add_road "A" "B" none 5).road_dict = exMap.road_dict ∧
    ∃ r, exFound.road = some r ∧ r ∈ exGo.actions (rootNode exGo).loc ∧
      exGo.map.getRes (rootNode exGo).loc r = some exFound.loc := by
  have h := claim_C10 exMap "A" "B" 5 exGo "home" false 3 0 1 exFound (Or.inl rfl)
  exact ⟨h.1, h.2.2 exFound (Node.mem_path_self exFound) (rootNode exGo) rfl⟩

/-! ### Termination of BFS without repeated-state checking -/

lemma le_foldr_max {α : Type} (f : α → ℕ) :
    ∀ {l : List α} {x : α}, x ∈ l → f x ≤ (l.map f).foldr max 0 := by
  intro l
  induction l with
  | nil => intro x hx; simp at hx
  | cons a t ih =>
    intro x hx
    rcases List.mem_cons.mp hx with h | h
    · subst h
      simp only [List.map_cons, List.foldr_cons]
      exact le_max_left _ _
    · simp only [List.map_cons, List.foldr_cons]
      exact le_trans (ih h) (le_max_right _ _)

lemma actions_length_le_branchBound (p : RouteProblem Loc Road) (loc : Loc) :
    (p.actions loc).length ≤ branchBound p := by
  unfold RouteProblem.actions RoadMap.roadsFrom branchBound
  cases hrd : alookup p.map.road_dict loc with
  | none => simp
  | some inner =>
    simp only [Option.getD_some, List.length_map]
    exact le_foldr_max (fun e => e.2.length) (alookup_mem hrd)

lemma frontierMeasure_cons (p : RouteProblem Loc Road) (h : Node Loc Road)
    (t : List (Node Loc Road)) :
    frontierMeasure p (h :: t) =
      sizeBound (branchBound p) (depth_limit + 1 - h.depth) + frontierMeasure p t := by
  simp [frontierMeasure]

lemma frontierMeasure_append (p : RouteProblem Loc Road)
    (l l' : List (Node Loc Road)) :
    frontierMeasure p (l ++ l') = frontierMeasure p l + frontierMeasure p l' := by
  simp [frontierMeasure]

lemma frontierMeasure_const_depth (p : RouteProblem Loc Road) {d : ℕ}
    {l : List (Node Loc Road)} (h : ∀ c ∈ l, c.depth = d) :
    frontierMeasure p l ≤ l.length * sizeBound (branchBound p) (depth_limit + 1 - d) := by
  unfold frontierMeasure
  calc (l.map (fun n => sizeBound (branchBound p) (depth_limit + 1 - n.depth))).sum
      ≤ (l.map (fun n => sizeBound (branchBound p) (depth_limit + 1 - n.depth))).length •
          sizeBound (branchBound p) (depth_limit + 1 - d) := by
        apply List.sum_le_card_nsmul
        intro x hx
        obtain ⟨c, hc, hcx⟩ := List.mem_map.mp hx
        rw [← hcx, h c hc]
    _ = l.length * sizeBound (branchBound p) (depth_limit + 1 - d) := by
        simp [smul_eq_mul]

/-- One loop iteration strictly decreases the frontier measure. -/
lemma frontierMeasure_step {p : RouteProblem Loc Road} {h : Node Loc Road}
    {t explored : List (Node Loc Road)} (hd : h.depth ≤ depth_limit)
    (hexp : Node.expand p h = some explored) :
    frontierMeasure p (t ++ explored) < frontierMeasure p (h :: t) := by
  rw [frontierMeasure_append, frontierMeasure_cons]
  by_cases hlt : h.depth < depth_limit
  · have hlen : explored.length ≤ branchBound p := by
      rw [expand_below_limit hlt] at hexp
      rw [listMapOpt_length hexp]
      exact actions_length_le_branchBound p h.loc
    have hdep : ∀ c ∈ explored, c.depth = h.depth + 1 := by
      intro c hc
      obtain ⟨_, r, hr, hcr⟩ := expand_children hexp c hc
      exact (child_node_spec hcr).2.2.2.2
    have hme := frontierMeasure_const_depth p hdep
    have harith : depth_limit + 1 - h.depth = (depth_limit - h.depth) + 1 := by omega
    have harith2 : depth_limit + 1 - (h.depth + 1) = depth_limit - h.depth := by omega
    rw [harith2] at hme
    rw [harith]
    have hsz : sizeBound (branchBound p) ((depth_limit - h.depth) + 1) =
        1 + branchBound p * sizeBound (branchBound p) (depth_limit - h.depth) := rfl
    rw [hsz]
    have : frontierMeasure p explored ≤
        branchBound p * sizeBound (branchBound p) (depth_limit - h.depth) :=
      le_trans hme (Nat.mul_le_mul_right _ hlen)
    omega
  · have : explored = [] := by
      have := expand_at_limit (p := p) (n := h) (by omega)
      rw [this] at hexp
      simpa using hexp.symm
    subst this
    have hpos : 1 ≤ sizeBound (branchBound p) (depth_limit + 1 - h.depth) := by
      cases hk : depth_limit + 1 - h.depth with
      | zero => omega
      | succ k => simp [sizeBound]
    simp [frontierMeasure]
    omega

/-- With a well-formed map and enough fuel, the BFS loop without repeat
checking completes: it returns a solution node or the no-solution value. -/
lemma bfsLoop_terminates {p : RouteProblem Loc Road} (hwf : WFRoads p) :
    ∀ (fuel : ℕ) (F : List (Node Loc Road)) (R : List (Node Loc Road)) (count : ℕ),
    (∀ n ∈ F, n.depth ≤ depth_limit) →
    frontierMeasure p F < fuel →
    (bfsLoop p fuel (Frontier.mk false F) R false count).2 = SearchResult.noSolution ∨
    ∃ n, (bfsLoop p fuel (Frontier.mk false F) R false count).2 =
      SearchResult.found n := by
  intro fuel
  induction fuel with
  | zero =>
    intro F R count _ hm
    omega
  | succ fuel ih =>
    intro F R count hdep hm
    cases F with
    | nil =>
      left
      rw [bfsLoop]
      rfl
    | cons h t =>
      rw [bfsLoop, Frontier.pop_fifo_cons]
      dsimp only
      by_cases hg : p.is_goal h.loc
      · right
        exact ⟨h, by rw [if_pos hg]⟩
      · rw [if_neg hg, Node.expand_counted]
        obtain ⟨explored, hexp⟩ :=
          Option.isSome_iff_exists.mp (expand_isSome_of_wf hwf h)
        rw [hexp]
        dsimp only
        rw [bfsAddChildren_false_spec]
        dsimp only
        have hnew : ∀ n ∈ t ++ explored, n.depth ≤ depth_limit := by
          intro n hn
          rcases List.mem_append.mp hn with h1 | h1
          · exact hdep n (List.mem_cons_of_mem _ h1)
          · obtain ⟨hlt, r, hr, hcr⟩ := expand_children hexp n h1
            have := (child_node_spec hcr).2.2.2.2
            unfold depth_limit at *
            omega
        have hless : frontierMeasure p (t ++ explored) < frontierMeasure p (h :: t) :=
          frontierMeasure_step (hdep h (List.mem_cons_self _ _)) hexp
        exact ih (t ++ explored) R (count + 1) hnew (by omega)

/-- `BFS` reduced to its loop when the root is not a goal. -/
lemma BFS_eq_loop {p : RouteProblem Loc Road} {rc : Bool} {fuel count : ℕ}
    (hg : p.is_goal (rootNode p).loc = false) :
    BFS p rc fuel count =
      bfsLoop p fuel (Frontier.mk false [rootNode p])
        (if rc then [rootNode p] else []) rc count := by
  have hg' : p.is_goal (Node.make p.start none none 0 : Node Loc Road).loc = false := hg
  simp only [BFS, hg', Bool.false_eq_true, if_false, Frontier.init]
  rfl

/-- `DFS` reduced to its loop when the root is not a goal. -/
lemma DFS_eq_loop {p : RouteProblem Loc Road} {rc : Bool} {fuel count : ℕ}
    (hg : p.is_goal (rootNode p).loc = false) :
    DFS p rc fuel count =
      dfsLoop p fuel (Frontier.mk true [rootNode p])
        (if rc then [(rootNode p).loc] else []) rc count := by
  have hg' : p.is_goal (Node.make p.start none none 0 : Node Loc Road).loc = false := hg
  simp only [DFS, hg', Bool.false_eq_true, if_false, Frontier.init]
  rfl

/-- C7: on every finite graph with a well-formed map, BFS without
repeated-state checking terminates — there is a fuel bound within which the
loop finishes and returns either a solution node or the no-solution
sentinel — even when a cycle is reachable within the depth limit. -/
theorem claim_C7 (p : RouteProblem Loc Road) (count : ℕ) (hwf : WFRoads p) :
    ∃ fuel, (BFS p false fuel count).2 = SearchResult.noSolution ∨
      ∃ n, (BFS p false fuel count).2 = SearchResult.found n := by
  by_cases hg : p.is_goal (rootNode p).loc = true
  · refine ⟨1, Or.inr ⟨rootNode p, ?_⟩⟩
    have hg' : p.is_goal (Node.make p.start none none 0 : Node Loc Road).loc = true := hg
    simp only [BFS, hg', if_true]
    rfl
  · have hg' : p.is_goal (rootNode p).loc = false := by
      cases hb : p.is_goal (rootNode p).loc
      · rfl
      · exact absurd hb hg
    refine ⟨frontierMeasure p [rootNode p] + 1, ?_⟩
    rw [BFS_eq_loop hg']
    have := bfsLoop_terminates hwf (frontierMeasure p [rootNode p] + 1) [rootNode p]
      (if False then [rootNode p] else []) count ?_ (by omega)
    · simpa using this
    · intro n hn
      simp at hn
      subst hn
      rw [rootNode_depth]
      unfold depth_limit
      omega

/-- Witness for C7 on a concrete cyclic two-location map with an unreachable
goal. -/
theorem claim_C7_witness :
    WFRoads cycProblem ∧
    (∃ fuel, (BFS cycProblem false fuel 0).2 = SearchResult.noSolution ∨
      ∃ n, (BFS cycProblem false fuel 0).2 = SearchResult.found n) :=
  ⟨by unfold WFRoads; decide, claim_C7 cycProblem 0 (by unfold WFRoads; decide)⟩

/-! ### Repeated-state checking: identical semantics in BFS and DFS -/

lemma bfsLoopAdded_nodup {p : RouteProblem Loc Road} :
    ∀ (fuel : ℕ) (s : Frontier Loc Road) (R : List (Node Loc Road)),
    (R.map Node.loc).Nodup →
    (R.map Node.loc ++ bfsLoopAdded p fuel s R).Nodup := by
  intro fuel
  induction fuel with
  | zero =>
    intro s R hnd
    rw [bfsLoopAdded]
    simpa using hnd
  | succ fuel ih =>
    intro s R hnd
    rw [bfsLoopAdded]
    cases hpop : s.pop with
    | none => simpa using hnd
    | some pr =>
      obtain ⟨taken, sett1⟩ := pr
      dsimp only
      by_cases hg : p.is_goal taken.loc
      · rw [if_pos hg]; simpa using hnd
      · rw [if_neg hg]
        cases hexp : Node.expand p taken with
        | none => simpa using hnd
        | some explored =>
          dsimp only
          obtain ⟨added, heq, hsub, hfresh, hall, hndp⟩ :=
            bfsAddChildren_true_spec explored sett1 R
          rw [heq]
          dsimp only
          have hdrop : ((R ++ added).map Node.loc).drop R.length = added.map Node.loc := by
            rw [List.map_append]
            have hlen : (R.map Node.loc).length = R.length := List.length_map _ _
            rw [← hlen, List.drop_left]
          rw [hdrop]
          have := ih (Frontier.mk sett1.lifo (sett1.nodes ++ added)) (R ++ added) (hndp hnd)
          simpa [List.map_append, List.append_assoc] using this

lemma dfsLoopAdded_nodup {p : RouteProblem Loc Road} :
    ∀ (fuel : ℕ) (s : Frontier Loc Road) (R : List Loc),
    R.Nodup →
    (R ++ dfsLoopAdded p fuel s R).Nodup := by
  intro fuel
  induction fuel with
  | zero =>
    intro s R hnd
    rw [dfsLoopAdded]
    simpa using hnd
  | succ fuel ih =>
    intro s R hnd
    rw [dfsLoopAdded]
    cases hpop : s.pop with
    | none => simpa using hnd
    | some pr =>
      obtain ⟨taken, sett1⟩ := pr
      dsimp only
      by_cases hg : p.is_goal taken.loc
      · rw [if_pos hg]; simpa using hnd
      · rw [if_neg hg]
        cases hexp : Node.expand p taken with
        | none => simpa using hnd
        | some explored =>
          dsimp only
          obtain ⟨added, heq, hsub, hfresh, hall, hndp⟩ :=
            dfsAddChildren_true_spec explored sett1 R
          rw [heq]
          dsimp only
          have hdrop : (R ++ added.map Node.loc).drop R.length = added.map Node.loc :=
            List.drop_left _ _
          rw [hdrop]
          have := ih (Frontier.mk sett1.lifo (sett1.nodes ++ added))
            (R ++ added.map Node.loc) (hndp hnd)
          simpa [List.append_assoc] using this

/-- C5: with repeated-state checking, DFS's linear-membership location list
and BFS's set of nodes compared by location enforce identical reached-set
semantics — the membership tests agree, each child is checked and recorded
before the next sibling (the same nodes extend the frontier and the reached
set), and over a whole run no location is ever added to the frontier a
second time. -/
theorem claim_C5 (p : RouteProblem Loc Road) :
    (∀ (S : List (Node Loc Road)) (L : List Loc) (i : Node Loc Road),
      S.map Node.loc = L →
      ((S.any fun m => decide (m.loc = i.loc)) = true ↔ i.loc ∈ L)) ∧
    (∀ (s : Frontier Loc Road) (R : List (Node Loc Road)) (i : Node Loc Road)
      (rest : List (Node Loc Road)),
      bfsAddChildren s R true (i :: rest) =
        if R.any (fun m => decide (m.loc = i.loc)) then bfsAddChildren s R true rest
        else bfsAddChildren (s.add (Sum.inr i)) (R ++ [i]) true rest) ∧
    (∀ (s : Frontier Loc Road) (R : List Loc) (i : Node Loc Road)
      (rest : List (Node Loc Road)),
      dfsAddChildren s R true (i :: rest) =
        if i.loc ∈ R then dfsAddChildren s R true rest
        else dfsAddChildren (s.add (Sum.inr i)) (R ++ [i.loc]) true rest) ∧
    (∀ (s : Frontier Loc Road) (R : List (Node Loc Road))
      (l : List (Node Loc Road)), ∃ added,
      bfsAddChildren s R true l =
        (Frontier.mk s.lifo (s.nodes ++ added), R ++ added)) ∧
    (∀ (s : Frontier Loc Road) (R : List Loc) (l : List (Node Loc Road)), ∃ added,
      dfsAddChildren s R true l =
        (Frontier.mk s.lifo (s.nodes ++ added), R ++ added.map Node.loc)) ∧
    (∀ fuel, ((rootNode p).loc ::
      bfsLoopAdded p fuel (Frontier.mk false [rootNode p]) [rootNode p]).Nodup) ∧
    (∀ fuel, ((rootNode p).loc ::
      dfsLoopAdded p fuel (Frontier.mk true [rootNode p]) [(rootNode p).loc]).Nodup) := by
  refine ⟨?_, ?_, ?_, ?_, ?_, ?_, ?_⟩
  · intro S L i hSL
    subst hSL
    simp only [List.any_eq_true, decide_eq_true_eq, List.mem_map]
  · intro s R i rest
    rw [bfsAddChildren, if_pos rfl]
  · intro s R i rest
    rw [dfsAddChildren, if_pos rfl]
  · intro s R l
    obtain ⟨added, heq, _, _, _, _⟩ := bfsAddChildren_true_spec l s R
    exact ⟨added, heq⟩
  · intro s R l
    obtain ⟨added, heq, _, _, _, _⟩ := dfsAddChildren_true_spec l s R
    exact ⟨added, heq⟩
  · intro fuel
    have := bfsLoopAdded_nodup (p := p) fuel (Frontier.mk false [rootNode p])
      [rootNode p] (by simp)
    simpa using this
  · intro fuel
    have := dfsLoopAdded_nodup (p := p) fuel (Frontier.mk true [rootNode p])
      [(rootNode p).loc] (by simp)
    simpa using this

/-- Witness for C5: the two membership tests agree on a concrete reached
set. -/
theorem claim_C5_witness :
    ([rootNode exGo].any fun m => decide (m.loc = (rootNode exGo).loc)) = true ↔
      (rootNode exGo).loc ∈ ["home"] :=
  (claim_C5 exGo).1 [rootNode exGo] ["home"] (rootNode exGo) rfl

/-! ### The FIFO window invariant and the non-decreasing pop order -/

lemma pairwise_of_mem {α : Type} {R : α → α → Prop} {l : List α}
    (h : ∀ a ∈ l, ∀ b ∈ l, R a b) : l.Pairwise R := by
  refine List.pairwise_iff_forall_sublist.mpr ?_
  intro a b hs
  exact h a (hs.subset (by simp)) b (hs.subset (by simp))

lemma winv_singleton (x : Node Loc Road) : Winv [x] := by
  constructor
  · simp
  · intro a ha b hb
    simp at ha hb
    subst ha
    subst hb
    omega

/-- Popping the head and appending any children of depth one more preserves
the window invariant, and everything remaining is at least as deep as the
popped head. -/
lemma winv_step {h : Node Loc Road} {t C : List (Node Loc Road)}
    (hw : Winv (h :: t)) (hC : ∀ c ∈ C, c.depth = h.depth + 1) :
    Winv (t ++ C) ∧ ∀ x ∈ t ++ C, h.depth ≤ x.depth := by
  obtain ⟨hpw, hwin⟩ := hw
  obtain ⟨hhead, htail⟩ := List.pairwise_cons.mp hpw
  have hmin_t : ∀ x ∈ t, h.depth ≤ x.depth := hhead
  have hwin_t : ∀ x ∈ t, x.depth ≤ h.depth + 1 := fun x hx =>
    hwin x (List.mem_cons_of_mem _ hx) h (List.mem_cons_self _ _)
  have hmin : ∀ x ∈ t ++ C, h.depth ≤ x.depth := by
    intro x hx
    rcases List.mem_append.mp hx with h1 | h1
    · exact hmin_t x h1
    · rw [hC x h1]; omega
  refine ⟨⟨?_, ?_⟩, hmin⟩
  · refine List.pairwise_append.mpr ⟨htail, ?_, ?_⟩
    · refine pairwise_of_mem ?_
      intro a ha b hb
      rw [hC a ha, hC b hb]
    · intro a ha b hb
      rw [hC b hb]
      exact le_trans (hwin_t a ha) (le_refl _)
  · intro a ha b hb
    rcases List.mem_append.mp ha with h1 | h1 <;>
      rcases List.mem_append.mp hb with h2 | h2
    · exact hwin a (List.mem_cons_of_mem _ h1) b (List.mem_cons_of_mem _ h2)
    · rw [hC b h2]
      have := hwin_t a h1
      omega
    · rw [hC a h1]
      have := hmin_t b h2
      omega
    · rw [hC a h1, hC b h2]
      omega

/-- After one iteration of the BFS loop the frontier still satisfies the
window invariant: the appended (possibly filtered) children all sit at depth
one more than the popped head. -/
lemma expand_children_depth {p : RouteProblem Loc Road} {h : Node Loc Road}
    {explored : List (Node Loc Road)} (hexp : Node.expand p h = some explored) :
    ∀ c ∈ explored, c.depth = h.depth + 1 := by
  intro c hc
  obtain ⟨_, r, hr, hcr⟩ := expand_children hexp c hc
  exact (child_node_spec hcr).2.2.2.2

/-- The sequence of nodes popped by the BFS loop has non-decreasing depth,
in either repeat-check mode. -/
lemma bfsLoopPops_chain {p : RouteProblem Loc Road} :
    ∀ (fuel : ℕ) (F : List (Node Loc Road)) (R : List (Node Loc Road)) (rc : Bool)
    (dmin : ℕ), Winv F → (∀ a ∈ F, dmin ≤ a.depth) →
    (bfsLoopPops p fuel (Frontier.mk false F) R rc).Chain'
      (fun a b => a.depth ≤ b.depth) ∧
    ∀ q ∈ bfsLoopPops p fuel (Frontier.mk false F) R rc, dmin ≤ q.depth := by
  intro fuel
  induction fuel with
  | zero =>
    intro F R rc dmin _ _
    rw [bfsLoopPops]
    exact ⟨List.chain'_nil, by simp⟩
  | succ fuel ih =>
    intro F R rc dmin hw hdmin
    rw [bfsLoopPops]
    cases F with
    | nil =>
      rw [Frontier.pop_fifo_nil]
      exact ⟨List.chain'_nil, by simp⟩
    | cons h t =>
      rw [Frontier.pop_fifo_cons]
      dsimp only
      have hhd : dmin ≤ h.depth := hdmin h (List.mem_cons_self _ _)
      by_cases hg : p.is_goal h.loc
      · rw [if_pos hg]
        exact ⟨List.chain'_singleton _, by
          intro q hq
          simp at hq
          subst hq
          exact hhd⟩
      · rw [if_neg hg]
        cases hexp : Node.expand p h with
        | none =>
          exact ⟨List.chain'_singleton _, by
            intro q hq
            simp at hq
            subst hq
            exact hhd⟩
        | some explored =>
          dsimp only
          have hCd : ∀ c ∈ explored, c.depth = h.depth + 1 :=
            expand_children_depth hexp
          cases rc with
          | true =>
            obtain ⟨added, heq, hsub, _, _, _⟩ :=
              bfsAddChildren_true_spec explored (Frontier.mk false t) R
            rw [heq]
            dsimp only
            have hCd' : ∀ c ∈ added, c.depth = h.depth + 1 := fun c hc =>
              hCd c (hsub.mem hc)
            obtain ⟨hw', hge⟩ := winv_step hw hCd'
            obtain ⟨hchain, hmem⟩ := ih (t ++ added) (R ++ added) true h.depth hw' hge
            refine ⟨?_, ?_⟩
            · refine List.chain'_cons'.mpr ⟨?_, hchain⟩
              intro y hy
              exact hmem y (List.mem_of_mem_head? hy)
            · intro q hq
              rcases List.mem_cons.mp hq with h1 | h1
              · subst h1; exact hhd
              · exact le_trans hhd (hmem q h1)
          | false =>
            rw [bfsAddChildren_false_spec]
            dsimp only
            obtain ⟨hw', hge⟩ := winv_step hw hCd
            obtain ⟨hchain, hmem⟩ := ih (t ++ explored) R false h.depth hw' hge
            refine ⟨?_, ?_⟩
            · refine List.chain'_cons'.mpr ⟨?_, hchain⟩
              intro y hy
              exact hmem y (List.mem_of_mem_head? hy)
            · intro q hq
              rcases List.mem_cons.mp hq with h1 | h1
              · subst h1; exact hhd
              · exact le_trans hhd (hmem q h1)

/-! ### Grafting and rerouting chains to a goal -/

/-- Grafting: a tree node `m` no deeper than `x` and at the same location
can replace `x` on the chain to `g`, giving a tree node at `g`'s location,
no deeper than `g`, whose path contains `m`. -/
lemma graft {p : RouteProblem Loc Road} {g : Node Loc Road} (hg : IsTreeNode p g) :
    ∀ x ∈ g.path, ∀ m : Node Loc Road, IsTreeNode p m → m.loc = x.loc →
    m.depth ≤ x.depth →
    ∃ g3, IsTreeNode p g3 ∧ g3.loc = g.loc ∧ g3.depth ≤ g.depth ∧ m ∈ g3.path := by
  induction hg with
  | root =>
    intro x hx m hm hloc hdep
    rw [Node.path_parent_none (rootNode_parent p)] at hx
    simp at hx
    subst hx
    exact ⟨m, hm, hloc, hdep, Node.mem_path_self m⟩
  | @child n r c hn hdlim hr hc ih =>
    intro x hx m hm hloc hdep
    rw [IsTreeNode.path_child hc] at hx
    rcases List.mem_append.mp hx with h1 | h2
    · obtain ⟨n3, hn3t, hn3loc, hn3dep, hmem⟩ := ih x h1 m hm hloc hdep
      obtain ⟨c3, hc3, hc3loc, hc3dep, hc3par⟩ :=
        child_node_congr_loc hc n3 hn3loc
      have hcd := (child_node_spec hc).2.2.2.2
      refine ⟨c3, IsTreeNode.child hn3t (by omega) (by rw [hn3loc]; exact hr) hc3,
        hc3loc, by omega, ?_⟩
      rw [Node.path_parent_some hc3par]
      exact List.mem_append_left _ hmem
    · simp at h2
      subst h2
      exact ⟨m, hm, hloc, hdep, Node.mem_path_self m⟩

/-- Rerouting through a goal-location representative. -/
lemma reroute_goalloc {p : RouteProblem Loc Road} {F : List (Node Loc Road)}
    {RL : List Loc} (hR : Rstar p F RL) {g : Node Loc Road} (hg : IsTreeNode p g)
    (hgoal : p.is_goal g.loc = true) (hRL : g.loc ∈ RL) :
    ∃ g3, IsTreeNode p g3 ∧ p.is_goal g3.loc = true ∧ g3.depth ≤ g.depth ∧
      ∃ a ∈ F, a ∈ g3.path := by
  obtain ⟨m, ⟨hmt, hml, hmmin⟩, hmF⟩ := hR _ hRL
  rcases hmF with hmF | hmH
  · exact ⟨m, hmt, by rw [hml]; exact hgoal, hmmin g hg rfl, m, hmF,
      Node.mem_path_self m⟩
  · exfalso
    have h1 := hmH.1
    rw [hml] at h1
    rw [h1] at hgoal
    exact absurd hgoal (by simp)

/-- Rerouting: if the reached-set invariant holds and some node `x` on the
chain to goal `g` has its location reached, then some goal tree node no
deeper than `g` has an ancestor-or-self in the frontier. -/
lemma reroute {p : RouteProblem Loc Road} {F : List (Node Loc Road)} {RL : List Loc}
    (hR : Rstar p F RL) :
    ∀ (k : ℕ) (g x : Node Loc Road), IsTreeNode p g → p.is_goal g.loc = true →
    x ∈ g.path → x.loc ∈ RL → g.depth - x.depth ≤ k →
    ∃ g3, IsTreeNode p g3 ∧ p.is_goal g3.loc = true ∧ g3.depth ≤ g.depth ∧
      ∃ a ∈ F, a ∈ g3.path := by
  intro k
  induction k with
  | zero =>
    intro g x hg hgoal hx hxRL hk
    have hle := mem_path_depth_le hg x hx
    have hxg : x = g := by
      by_contra hne
      have := mem_path_depth_lt hg x hx hne
      omega
    subst hxg
    exact reroute_goalloc hR hg hgoal hxRL
  | succ k ih =>
    intro g x hg hgoal hx hxRL hk
    by_cases hxg : x = g
    · subst hxg
      exact reroute_goalloc hR hg hgoal hxRL
    · obtain ⟨x1, r, hx1mem, hract, hxdlim, hcx1⟩ := path_next hg x hx hxg
      obtain ⟨m, ⟨hmt, hml, hmmin⟩, hmF⟩ := hR _ hxRL
      rcases hmF with hmF | hmH
      · obtain ⟨g3, hg3t, hg3loc, hg3dep, hmmem⟩ :=
          graft hg x hx m hmt hml (hmmin x (mem_path_tree hg x hx) rfl)
        exact ⟨g3, hg3t, by rw [hg3loc]; exact hgoal, hg3dep, m, hmF, hmmem⟩
      · have hmdep : m.depth ≤ x.depth := hmmin x (mem_path_tree hg x hx) rfl
        obtain ⟨c1, hc1, hc1loc, _, _⟩ := child_node_congr_loc hcx1 m hml
        have hx1RL : x1.loc ∈ RL := by
          have := hmH.2 (by omega) r (by rw [hml]; exact hract) c1 hc1
          rw [hc1loc] at this
          exact this
        have hx1dep : x1.depth = x.depth + 1 := (child_node_spec hcx1).2.2.2.2
        have hxlt : x.depth < g.depth := mem_path_depth_lt hg x hx hxg
        exact ih g x1 hg hgoal hx1mem hx1RL (by omega)

/-! ### Preservation of the reached-set invariants -/

/-- A tree node of positive depth is a child of a tree node. -/
lemma tree_succ_inv {p : RouteProblem Loc Road} {t : Node Loc Road}
    (ht : IsTreeNode p t) (hd : t.depth ≠ 0) :
    ∃ s r, IsTreeNode p s ∧ s.depth < depth_limit ∧ r ∈ p.actions s.loc ∧
      Node.child_node p s r = some t ∧ t.depth = s.depth + 1 := by
  cases ht with
  | root => exact absurd (rootNode_depth p) hd
  | @child n r c hn hdl hr hc =>
    exact ⟨n, r, hn, hdl, hr, hc, (child_node_spec hc).2.2.2.2⟩

/-- If every tree node strictly shallower than `d` is reached, the whole
frontier is at depth at least `d`, and the reached-set invariant holds, then
every tree node of depth at most `d` is reached. -/
lemma depth_d_reached {p : RouteProblem Loc Road} {F : List (Node Loc Road)}
    {RL : List Loc} {d : ℕ}
    (hR : Rstar p F RL) (hroot : (rootNode p).loc ∈ RL)
    (hFge : ∀ x ∈ F, d ≤ x.depth)
    (hparent : ∀ s, IsTreeNode p s → s.depth < d → s.loc ∈ RL) :
    ∀ t, IsTreeNode p t → t.depth ≤ d → t.loc ∈ RL := by
  intro t ht hd
  by_cases hlt : t.depth < d
  · exact hparent t ht hlt
  · have htd : t.depth = d := by omega
    by_cases hd0 : t.depth = 0
    · have := tree_depth_zero ht hd0
      subst this
      exact hroot
    · obtain ⟨s, r, hs, hslim, hsr, hsc, hsd⟩ := tree_succ_inv ht hd0
      have hsRL : s.loc ∈ RL := hparent s hs (by omega)
      obtain ⟨m, ⟨hmt, hml, hmmin⟩, hmF⟩ := hR _ hsRL
      have hmdep : m.depth ≤ s.depth := hmmin s hs rfl
      rcases hmF with hmF | hmH
      · have := hFge m hmF
        omega
      · obtain ⟨c1, hc1, hc1loc, _, _⟩ := child_node_congr_loc hsc m hml
        have := hmH.2 (by omega) r (by rw [hml]; exact hsr) c1 hc1
        rw [hc1loc] at this
        exact this

/-- One iteration of the repeat-checking BFS loop preserves the reached-set
invariants: popping a non-goal head `h0`, expanding it and processing the
children keeps the window, tree-membership, root-reached and `Rstar`
invariants, and keeps `Ginv` as long as the frontier stays nonempty. -/
lemma rc_step {p : RouteProblem Loc Road} {h0 : Node Loc Road}
    {t explored added : List (Node Loc Road)} {R : List (Node Loc Road)}
    (hw : Winv (h0 :: t)) (hT : ∀ x ∈ h0 :: t, IsTreeNode p x)
    (hroot : (rootNode p).loc ∈ R.map Node.loc)
    (hR : Rstar p (h0 :: t) (R.map Node.loc))
    (hG : Ginv p (h0 :: t) (R.map Node.loc))
    (hg0 : p.is_goal h0.loc = false)
    (hexp : Node.expand p h0 = some explored)
    (hsub : added.Sublist explored)
    (hfresh : ∀ a ∈ added, a.loc ∉ R.map Node.loc)
    (hall : ∀ c ∈ explored, c.loc ∈ (R ++ added).map Node.loc) :
    Winv (t ++ added) ∧ (∀ x ∈ t ++ added, IsTreeNode p x) ∧
    (rootNode p).loc ∈ (R ++ added).map Node.loc ∧
    Rstar p (t ++ added) ((R ++ added).map Node.loc) ∧
    (t ++ added ≠ [] → Ginv p (t ++ added) ((R ++ added).map Node.loc)) := by
  have hh0t : IsTreeNode p h0 := hT h0 (List.mem_cons_self _ _)
  have hCd : ∀ c ∈ explored, c.depth = h0.depth + 1 := expand_children_depth hexp
  have hCd' : ∀ c ∈ added, c.depth = h0.depth + 1 := fun c hc => hCd c (hsub.mem hc)
  obtain ⟨hw', hge⟩ := winv_step hw hCd'
  have hFge : ∀ x ∈ h0 :: t, h0.depth ≤ x.depth := by
    intro x hx
    rcases List.mem_cons.mp hx with h1 | h1
    · subst h1; exact le_refl _
    · exact (List.pairwise_cons.mp hw.1).1 x h1
  have hT' : ∀ x ∈ t ++ added, IsTreeNode p x := by
    intro x hx
    rcases List.mem_append.mp hx with h1 | h1
    · exact hT x (List.mem_cons_of_mem _ h1)
    · exact (expand_tree hh0t hexp x (hsub.mem h1)).1
  have hRLsub : ∀ l ∈ R.map Node.loc, l ∈ (R ++ added).map Node.loc := by
    intro l hl
    rw [List.map_append]
    exact List.mem_append_left _ hl
  have hroot' : (rootNode p).loc ∈ (R ++ added).map Node.loc := hRLsub _ hroot
  have hH : Handled p ((R ++ added).map Node.loc) h0 := by
    refine ⟨hg0, ?_⟩
    intro hlt r hr c hc
    exact hall c (expand_mem hexp hlt hr hc)
  have hR' : Rstar p (t ++ added) ((R ++ added).map Node.loc) := by
    intro l hl
    rw [List.map_append] at hl
    rcases List.mem_append.mp hl with hold | hnew
    · obtain ⟨m, hmin, hmF⟩ := hR _ hold
      refine ⟨m, hmin, ?_⟩
      rcases hmF with hmF | hmH
      · rcases List.mem_cons.mp hmF with h1 | h1
        · right
          rw [h1]
          exact hH
        · left
          exact List.mem_append_left _ h1
      · right
        exact ⟨hmH.1, fun hlt r hr c hc => hRLsub _ (hmH.2 hlt r hr c hc)⟩
    · obtain ⟨a, ha, hal⟩ := List.mem_map.mp hnew
      have haexp : a ∈ explored := hsub.mem ha
      have hdlim : h0.depth < depth_limit := (expand_children hexp a haexp).1
      refine ⟨a, ⟨(expand_tree hh0t hexp a haexp).1, hal, ?_⟩,
        Or.inl (List.mem_append_right _ ha)⟩
      intro t' ht' htl'
      by_contra hcon
      push_neg at hcon
      have hta : t'.depth ≤ h0.depth := by
        have := hCd' a ha
        omega
      have : t'.loc ∈ R.map Node.loc := by
        refine depth_d_reached hR hroot hFge ?_ t' ht' hta
        intro s hs hsd
        exact hG s hs (fun x hx => lt_of_lt_of_le hsd (hFge x hx))
      rw [htl', ← hal] at this
      exact hfresh a ha this
  refine ⟨hw', hT', hroot', hR', ?_⟩
  intro hne t' ht' hbelow
  -- every element of the new frontier has depth within the old window
  have hwin_new : ∀ x ∈ t ++ added, x.depth ≤ h0.depth + 1 := by
    intro x hx
    rcases List.mem_append.mp hx with h1 | h1
    · exact hw.2 x (List.mem_cons_of_mem _ h1) h0 (List.mem_cons_self _ _)
    · rw [hCd' x h1]
  obtain ⟨x0, hx0⟩ := List.exists_mem_of_ne_nil _ hne
  have hd' : t'.depth ≤ h0.depth := by
    have h1 := hbelow x0 hx0
    have h2 := hwin_new x0 hx0
    omega
  have hparent' : ∀ s, IsTreeNode p s → s.depth < h0.depth →
      s.loc ∈ (R ++ added).map Node.loc := by
    intro s hs hsd
    refine hRLsub _ (hG s hs ?_)
    intro x hx
    exact lt_of_lt_of_le hsd (hFge x hx)
  exact depth_d_reached hR' hroot' hge hparent' t' ht' hd'

/-! ### Shallowest-depth optimality of BFS -/

/-- Minimality for BFS without repeated-state checking: if some ancestor of
the goal chain is in the frontier and the loop returns a node, that node is
no deeper than the goal. -/
lemma bfsLoop_min_norc {p : RouteProblem Loc Road} {g : Node Loc Road}
    (hgt : IsTreeNode p g) (hggoal : p.is_goal g.loc = true) :
    ∀ (fuel : ℕ) (F R : List (Node Loc Road)) (count c' : ℕ) (n : Node Loc Road),
    Winv F → (∀ x ∈ F, IsTreeNode p x) →
    (∃ a ∈ F, a ∈ g.path) →
    bfsLoop p fuel (Frontier.mk false F) R false count = (c', .found n) →
    n.depth ≤ g.depth := by
  intro fuel
  induction fuel with
  | zero =>
    intro F R count c' n _ _ _ h
    rw [bfsLoop] at h
    simp at h
  | succ fuel ih =>
    intro F R count c' n hw hT hlink h
    cases F with
    | nil =>
      rw [bfsLoop, Frontier.pop_fifo_nil] at h
      simp at h
    | cons h0 t =>
      rw [bfsLoop, Frontier.pop_fifo_cons] at h
      dsimp only at h
      by_cases hg0 : p.is_goal h0.loc
      · rw [if_pos hg0] at h
        simp only [Prod.mk.injEq] at h
        obtain ⟨_, h2⟩ := h
        injection h2 with hh
        rw [← hh]
        obtain ⟨a, haF, hapath⟩ := hlink
        have h1 : h0.depth ≤ a.depth := by
          rcases List.mem_cons.mp haF with h1 | h1
          · subst h1; exact le_refl _
          · exact (List.pairwise_cons.mp hw.1).1 a h1
        have h2 := mem_path_depth_le hgt a hapath
        omega
      · rw [if_neg hg0, Node.expand_counted] at h
        cases hexp : Node.expand p h0 with
        | none => rw [hexp] at h; simp at h
        | some explored =>
          rw [hexp] at h
          dsimp only at h
          rw [bfsAddChildren_false_spec] at h
          dsimp only at h
          have hCd := expand_children_depth hexp
          obtain ⟨hw', _⟩ := winv_step hw hCd
          have hT' : ∀ x ∈ t ++ explored, IsTreeNode p x := by
            intro x hx
            rcases List.mem_append.mp hx with h1 | h1
            · exact hT x (List.mem_cons_of_mem _ h1)
            · exact (expand_tree (hT h0 (List.mem_cons_self _ _)) hexp x h1).1
          have hlink' : ∃ a ∈ t ++ explored, a ∈ g.path := by
            obtain ⟨a, haF, hapath⟩ := hlink
            rcases List.mem_cons.mp haF with h1 | h1
            · subst h1
              have hane : a ≠ g := by
                intro he
                rw [he] at hg0
                exact hg0 hggoal
              obtain ⟨a', r, ha'mem, hract, hdlim0, hca'⟩ := path_next hgt a hapath hane
              exact ⟨a', List.mem_append_right _ (expand_mem hexp hdlim0 hract hca'),
                ha'mem⟩
            · exact ⟨a, List.mem_append_left _ h1, hapath⟩
          exact ih (t ++ explored) R (count + 1) c' n hw' hT' hlink' h

/-- Minimality for BFS with repeated-state checking, under the reached-set
invariants. -/
lemma bfsLoop_min_rc {p : RouteProblem Loc Road} {g : Node Loc Road}
    (hgt : IsTreeNode p g) (hggoal : p.is_goal g.loc = true) :
    ∀ (fuel : ℕ) (F R : List (Node Loc Road)) (count c' : ℕ) (n : Node Loc Road),
    Winv F → (∀ x ∈ F, IsTreeNode p x) →
    (rootNode p).loc ∈ R.map Node.loc →
    Rstar p F (R.map Node.loc) → Ginv p F (R.map Node.loc) →
    GoalLink p F g →
    bfsLoop p fuel (Frontier.mk false F) R true count = (c', .found n) →
    n.depth ≤ g.depth := by
  intro fuel
  induction fuel with
  | zero =>
    intro F R count c' n _ _ _ _ _ _ h
    rw [bfsLoop] at h
    simp at h
  | succ fuel ih =>
    intro F R count c' n hw hT hroot hR hG hGL h
    cases F with
    | nil =>
      rw [bfsLoop, Frontier.pop_fifo_nil] at h
      simp at h
    | cons h0 t =>
      rw [bfsLoop, Frontier.pop_fifo_cons] at h
      dsimp only at h
      by_cases hg0 : p.is_goal h0.loc
      · rw [if_pos hg0] at h
        simp only [Prod.mk.injEq] at h
        obtain ⟨_, h2⟩ := h
        injection h2 with hh
        rw [← hh]
        obtain ⟨g', hg't, hg'goal, hg'le, a, haF, hapath⟩ := hGL
        have h1 : h0.depth ≤ a.depth := by
          rcases List.mem_cons.mp haF with h1 | h1
          · subst h1; exact le_refl _
          · exact (List.pairwise_cons.mp hw.1).1 a h1
        have h2 := mem_path_depth_le hg't a hapath
        omega
      · have hg0' : p.is_goal h0.loc = false := by
          cases hb : p.is_goal h0.loc
          · rfl
          · exact absurd hb hg0
        rw [if_neg hg0, Node.expand_counted] at h
        cases hexp : Node.expand p h0 with
        | none => rw [hexp] at h; simp at h
        | some explored =>
          rw [hexp] at h
          dsimp only at h
          obtain ⟨added, heq, hsub, hfresh, hall, _⟩ :=
            bfsAddChildren_true_spec explored (Frontier.mk false t) R
          rw [heq] at h
          dsimp only at h
          obtain ⟨hw', hT', hroot', hR', hGmk⟩ :=
            rc_step hw hT hroot hR hG hg0' hexp hsub hfresh hall
          -- re-establish the goal link on the new state
          obtain ⟨g', hg't, hg'goal, hg'le, a, haF, hapath⟩ := hGL
          have hGL' : GoalLink p (t ++ added) g := by
            rcases List.mem_cons.mp haF with h1 | h1
            · subst h1
              have hane : a ≠ g' := by
                intro he
                rw [he] at hg0
                exact hg0 hg'goal
              obtain ⟨a', r, ha'mem, hract, hdlim0, hca'⟩ :=
                path_next hg't a hapath hane
              have ha'exp : a' ∈ explored := expand_mem hexp hdlim0 hract hca'
              have ha'RL : a'.loc ∈ (R ++ added).map Node.loc := hall a' ha'exp
              obtain ⟨g3, hg3t, hg3goal, hg3le, b, hbF, hbpath⟩ :=
                reroute hR' g'.depth g' a' hg't hg'goal ha'mem ha'RL (by omega)
              exact ⟨g3, hg3t, hg3goal, by omega, b, hbF, hbpath⟩
            · exact ⟨g', hg't, hg'goal, hg'le, a, List.mem_append_left _ h1, hapath⟩
          have hGLkeep := hGL'
          obtain ⟨g2, _, _, _, b, hbF, _⟩ := hGLkeep
          have hne : t ++ added ≠ [] := List.ne_nil_of_mem hbF
          exact ih (t ++ added) (R ++ added) (count + 1) c' n hw' hT' hroot' hR'
            (hGmk hne) hGL' h

/-- C3: in breadth-first search, in either repeat-check mode, the sequence of
nodes popped from the FIFO frontier has non-decreasing depth, and a returned
solution node is a goal tree node of minimum depth among all goal nodes
reachable within the depth limit. -/
theorem claim_C3 (p : RouteProblem Loc Road) (rc : Bool) (fuel count : ℕ) :
    ((BFSpops p rc fuel).Chain' fun a b => a.depth ≤ b.depth) ∧
    (∀ c' n, BFS p rc fuel count = (c', .found n) →
      IsTreeNode p n ∧ p.is_goal n.loc = true ∧
      ∀ g, IsTreeNode p g → p.is_goal g.loc = true → n.depth ≤ g.depth) := by
  constructor
  · by_cases hg : p.is_goal (Node.make p.start none none 0 : Node Loc Road).loc
    · simp only [BFSpops, hg, if_true]
      exact List.chain'_nil
    · simp only [BFSpops, hg, Bool.false_eq_true, if_false, Frontier.init]
      exact (bfsLoopPops_chain fuel [Node.make p.start none none 0]
        (if rc then [Node.make p.start none none 0] else []) rc 0
        (winv_singleton _) (by simp)).1
  · intro c' n h
    refine ⟨(BFS_found_tree h).1, (BFS_found_tree h).2, ?_⟩
    intro g hgt hggoal
    by_cases hg : p.is_goal (rootNode p).loc = true
    · have hg2 : p.is_goal (Node.make p.start none none 0 : Node Loc Road).loc = true := hg
      simp only [BFS, hg2, if_true] at h
      simp only [Prod.mk.injEq] at h
      obtain ⟨_, h2⟩ := h
      injection h2 with hh
      rw [← hh, Node.make_none, Node.depth_mk]
      omega
    · have hg' : p.is_goal (rootNode p).loc = false := by
        cases hb : p.is_goal (rootNode p).loc
        · rfl
        · exact absurd hb hg
      rw [BFS_eq_loop hg'] at h
      cases rc with
      | false =>
        refine bfsLoop_min_norc hgt hggoal fuel [rootNode p] _ count c' n
          (winv_singleton _) ?_ ?_ (by simpa using h)
        · intro x hx
          simp at hx
          subst hx
          exact IsTreeNode.root
        · exact ⟨rootNode p, List.mem_cons_self _ _, root_mem_path hgt⟩
      | true =>
        refine bfsLoop_min_rc hgt hggoal fuel [rootNode p] [rootNode p] count c' n
          (winv_singleton _) ?_ (by simp) ?_ ?_ ?_ (by simpa using h)
        · intro x hx
          simp at hx
          subst hx
          exact IsTreeNode.root
        · intro l hl
          simp at hl
          refine ⟨rootNode p, ⟨IsTreeNode.root, hl.symm, ?_⟩,
            Or.inl (List.mem_cons_self _ _)⟩
          intro t' _ _
          rw [rootNode_depth]
          omega
        · intro t' ht' hbelow
          exfalso
          have := hbelow (rootNode p) (List.mem_cons_self _ _)
          rw [rootNode_depth] at this
          omega
        · exact ⟨g, hgt, hggoal, le_refl _, rootNode p, List.mem_cons_self _ _,
            root_mem_path hgt⟩

/-- Witness for C3 on the concrete run of `BFS` over `exGo`, which returns
the depth-1 node `exFound`. -/
theorem claim_C3_witness :
    exFound.depth ≤ exFound.depth ∧ exGo.is_goal exFound.loc = true := by
  have ht : IsTreeNode exGo exFound :=
    IsTreeNode.child (r := "main") IsTreeNode.root (by decide) (by decide) rfl
  have h := (claim_C3 exGo false 3 0).2 1 exFound rfl
  exact ⟨h.2.2 exFound ht rfl, h.2.1⟩

end RouteSearch
